import Mathlib

/-!
Verification development for the `voucherify_core_mcp` pagination engine
(`src/voucherify_core_mcp/pagination.py`) and the validation-rule
resolution logic inlined in its tool handlers
(`src/voucherify_core_mcp/server.py`, `get_campaign` and `get_best_deals`).

The Python code manipulates JSON documents (Python dicts/lists as produced
by `response.json()`).  We embed JSON values as the inductive type `J`
below, Python dicts as insertion-ordered association lists with unique
keys (`setKey` mirrors Python's `d[k] = v`: update in place, append when
new), and Python truthiness as `J.truthy`.

The remote server is modelled as the sequence of JSON bodies it returns to
the successive requests of one pagination run (`resps : List J`; the
engine issues exactly one request per loop iteration, in order), or, for
single-rule fetches, as a function from the requested rule id to the body
(`ruleServer : J → J`).  Each paginator returns `Option (trace × result)`:
the trace is the list of query-parameter dicts actually sent, and the
result is the envelope the Python function returns; `none` means the
supplied response list was exhausted while the loop still wanted to issue
another request (the model's counterpart of a run needing more pages than
we provided — every theorem below supplies enough pages).
-/

/-- JSON values, as produced by `response.json()`. -/
inductive J where
  | null : J
  | bool : Bool → J
  | num : Int → J
  | str : String → J
  | arr : List J → J
  | obj : List (String × J) → J
deriving Repr

/-- Python truthiness (`if x:`): `None`, `False`, `0`, `""`, `[]`, `{}`
are falsy, everything else truthy. -/
def J.truthy : J → Bool
  | .null => false
  | .bool b => b
  | .num n => n != 0
  | .str s => s != ""
  | .arr xs => !xs.isEmpty
  | .obj kvs => !kvs.isEmpty

/-- Query-parameter dict / JSON object body: insertion-ordered association
list with unique keys (Python `dict`). -/
abbrev Params := List (String × J)

/-- Python dict lookup `d.get(k)` on the underlying association list. -/
def lookupKey : Params → String → Option J
  | [], _ => none
  | (k', v) :: rest, k => if k' = k then some v else lookupKey rest k

/-- Python dict assignment `d[k] = v`: updates the existing entry in
place (keeping its position) or appends a new entry at the end. -/
def setKey : Params → String → J → Params
  | [], k, v => [(k, v)]
  | (k', v') :: rest, k, v =>
      if k' = k then (k, v) :: rest else (k', v') :: setKey rest k v

/-- Python `del d[k]` (no-op framing: the callers below only delete keys
they have just looked up, so presence is guaranteed at the call sites). -/
def delKey : Params → String → Params
  | [], _ => []
  | (k', v') :: rest, k => if k' = k then rest else (k', v') :: delKey rest k

/-- `_safe_get(d, path, default)` from `pagination.py` lines 15–21:
walks `path` through nested dicts, returning `default` as soon as the
current value is not a dict or the key is absent. -/
def _safe_get (d : J) (path : List String) (dflt : J) : J :=
  match path with
  | [] => d
  | k :: rest =>
      match d with
      | .obj kvs =>
          match lookupKey kvs k with
          | some v => _safe_get v rest dflt
          | none => dflt
      | _ => dflt

/-- The item batch a paginator works on: `_safe_get(data, [data_key], [])`
followed by Python's use of the value as a list.  The model is restricted
to responses whose item field, when present, is a JSON array (on any other
type the Python code would raise a `TypeError` from the slice/`len` calls;
no claim exercises that case). -/
def J.asList : J → List J
  | .arr xs => xs
  | _ => []

/-- The uniform list envelope built at the end of each paginator
(`pagination.py` lines 110–118, 153–161, 218–225): `{"object": "list",
"data_ref": data_key, data_key: items, "has_more": has_more}` plus an
optional `"more_starting_after"` entry. -/
structure Envelope where
  dataRef : String
  items : List J
  hasMore : J
  moreStartingAfter : Option J
deriving Repr

/-- Rendering of an `Envelope` as the JSON object the Python code
returns, with Python dict-literal semantics (`setKey` chain, so a
`data_key` colliding with a fixed key overwrites it as in Python). -/
def Envelope.toJ (e : Envelope) : J :=
  let base :=
    setKey (setKey (setKey (setKey [] "object" (.str "list"))
      "data_ref" (.str e.dataRef)) e.dataRef (.arr e.items)) "has_more" e.hasMore
  J.obj (match e.moreStartingAfter with
    | some c => setKey base "more_starting_after" c
    | none => base)

/-- Loop condition shared by all three paginators:
`while has_more and (max_items is None or total_fetched < max_items)`. -/
def underMax (maxItems : Option Nat) (totalFetched : Nat) : Bool :=
  match maxItems with
  | none => true
  | some m => totalFetched < m

/-- Mid-loop slicing `items[: max_items - total_fetched]`
(`pagination.py` lines 94–95, 141–142, 198–199). -/
def sliceToMax (maxItems : Option Nat) (totalFetched : Nat) (items : List J) : List J :=
  match maxItems with
  | none => items
  | some m => items.take (m - totalFetched)

/-- Envelope construction at the end of `_auto_paginate_timestamp`
(lines 110–118): the cursor entry is added only when both `has_more` and
the loop's `more_starting_after` variable are truthy. -/
def tsFinish (dataKey : String) (allItems : List J) (hasMore msa : J) : Envelope :=
  { dataRef := dataKey, items := allItems, hasMore := hasMore,
    moreStartingAfter := if hasMore.truthy && msa.truthy then some msa else none }

/-- The `while` loop of `_auto_paginate_timestamp` (`pagination.py`
lines 90–109), one constructor case per request consumed.  State
variables mirror the Python locals: `allItems`/`hasMore`/`msa`
(`more_starting_after`)/`params`/`totalFetched`. -/
def tsLoop (dataKey cursorField : String) (autoPaginate : Bool) (maxItems : Option Nat) :
    List J → List J → J → J → Params → Nat → Option (List Params × Envelope)
  | [], allItems, hasMore, msa, _, totalFetched =>
      if hasMore.truthy && underMax maxItems totalFetched then
        none
      else
        some ([], tsFinish dataKey allItems hasMore msa)
  | data :: rest, allItems, hasMore, msa, params, totalFetched =>
      if hasMore.truthy && underMax maxItems totalFetched then
        let items := sliceToMax maxItems totalFetched (_safe_get data [dataKey] (.arr [])).asList
        let allItems' := allItems ++ items
        let totalFetched' := totalFetched + items.length
        let hasMore' := _safe_get data ["has_more"] (.bool false)
        if !hasMore'.truthy || !autoPaginate then
          some ([params], tsFinish dataKey allItems' hasMore' msa)
        else
          match items.getLast? with
          | some last =>
              let msa' := _safe_get last [cursorField] .null
              if msa'.truthy then
                (tsLoop dataKey cursorField autoPaginate maxItems rest allItems' hasMore' msa'
                    (setKey params "starting_after" msa') totalFetched').map
                  (fun r => (params :: r.1, r.2))
              else
                some ([params], tsFinish dataKey allItems' (.bool false) msa')
          | none =>
              some ([params], tsFinish dataKey allItems' (.bool false) msa)
      else
        some ([], tsFinish dataKey allItems hasMore msa)

/-- `_auto_paginate_timestamp` (`pagination.py` lines 72–118).  The
`ctx`/`endpoint` arguments only affect logging and which URL the request
primitive hits, so they are dropped; `resps` is the sequence of response
bodies the server returns to the successive requests. -/
def _auto_paginate_timestamp (base_params : Params) (data_key cursor_field : String)
    (limit : Int) (auto_paginate : Bool) (max_items : Option Nat) (resps : List J) :
    Option (List Params × Envelope) :=
  tsLoop data_key cursor_field auto_paginate max_items resps [] (.bool true) .null
    (setKey base_params "limit" (.num limit)) 0

example :
    _auto_paginate_timestamp [] "data" "id" 10 true none
      [J.obj [("data", .arr [.obj [("id", .str "a")]]), ("has_more", .bool false)]] =
    some ([[("limit", .num 10)]],
      { dataRef := "data", items := [.obj [("id", .str "a")]],
        hasMore := .bool false, moreStartingAfter := none }) := rfl

/-- Envelope construction at the end of `_auto_paginate_id` (lines
153–161): the cursor entry, when added, is `params["starting_after_id"]`
(`params.get` defaulting to `None`). -/
def idFinish (dataKey : String) (allItems : List J) (hasMore : J) (params : Params) : Envelope :=
  let c := (lookupKey params "starting_after_id").getD .null
  { dataRef := dataKey, items := allItems, hasMore := hasMore,
    moreStartingAfter := if hasMore.truthy && c.truthy then some c else none }

/-- The `while` loop of `_auto_paginate_id` (`pagination.py` lines
137–152): same shape as the timestamp loop but the continuation token is
the response body's `more_starting_after` field, sent back as
`starting_after_id`. -/
def idLoop (dataKey : String) (autoPaginate : Bool) (maxItems : Option Nat) :
    List J → List J → J → Params → Nat → Option (List Params × Envelope)
  | [], allItems, hasMore, params, totalFetched =>
      if hasMore.truthy && underMax maxItems totalFetched then
        none
      else
        some ([], idFinish dataKey allItems hasMore params)
  | data :: rest, allItems, hasMore, params, totalFetched =>
      if hasMore.truthy && underMax maxItems totalFetched then
        let items := sliceToMax maxItems totalFetched (_safe_get data [dataKey] (.arr [])).asList
        let allItems' := allItems ++ items
        let totalFetched' := totalFetched + items.length
        let hasMore' := _safe_get data ["has_more"] (.bool false)
        let cursor := _safe_get data ["more_starting_after"] .null
        if !hasMore'.truthy || !autoPaginate then
          some ([params], idFinish dataKey allItems' hasMore' params)
        else
          if cursor.truthy then
            (idLoop dataKey autoPaginate maxItems rest allItems' hasMore'
                (setKey params "starting_after_id" cursor) totalFetched').map
              (fun r => (params :: r.1, r.2))
          else
            some ([params], idFinish dataKey allItems' (.bool false) params)
      else
        some ([], idFinish dataKey allItems hasMore params)

/-- `_auto_paginate_id` (`pagination.py` lines 121–161). -/
def _auto_paginate_id (base_params : Params) (data_key : String)
    (limit : Int) (auto_paginate : Bool) (max_items : Option Nat) (resps : List J) :
    Option (List Params × Envelope) :=
  idLoop data_key auto_paginate max_items resps [] (.bool true)
    (setKey base_params "limit" (.num limit)) 0

/-- The `while` loop of `_auto_paginate_pages` (`pagination.py` lines
189–216).  `has_more` needs no state variable: the loop re-enters only on
the path that leaves it `True`, and each exit determines the envelope's
`has_more` at the break site (`False` on the empty-batch and short-page
breaks, `True` on the max-items break and on loop-condition failure). -/
def pagesLoop (dataKey pageParam : String) (limit : Int) (maxItems : Option Nat) :
    List J → List J → Int → Params → Nat → Option (List Params × Envelope)
  | [], allItems, _, _, totalFetched =>
      if underMax maxItems totalFetched then
        none
      else
        some ([], ⟨dataKey, allItems, .bool true, none⟩)
  | data :: rest, allItems, currentPage, params, totalFetched =>
      if underMax maxItems totalFetched then
        let items0 := (_safe_get data [dataKey] (.arr [])).asList
        if items0.isEmpty then
          some ([params], ⟨dataKey, allItems, .bool false, none⟩)
        else
          let items := sliceToMax maxItems totalFetched items0
          let allItems' := allItems ++ items
          let totalFetched' := totalFetched + items.length
          if (items.length : Int) < limit then
            some ([params], ⟨dataKey, allItems', .bool false, none⟩)
          else if !(underMax maxItems totalFetched') then
            some ([params], ⟨dataKey, allItems', .bool true, none⟩)
          else
            (pagesLoop dataKey pageParam limit maxItems rest allItems' (currentPage + 1)
                (setKey params pageParam (.num (currentPage + 1))) totalFetched').map
              (fun r => (params :: r.1, r.2))
      else
        some ([], ⟨dataKey, allItems, .bool true, none⟩)

/-- The starting page of `_auto_paginate_pages`:
`current_page = params.get(page_param) or 1` (line 185).  The model is
restricted to a caller page value that is absent or an integer (`0` is
falsy, hence replaced by `1`); a non-integer truthy value would raise a
`TypeError` in Python at `current_page += 1`, and no claim exercises it. -/
def startPage (base_params : Params) (pageParam : String) : Int :=
  match lookupKey base_params pageParam with
  | some (.num n) => if n != 0 then n else 1
  | _ => 1

/-- `_auto_paginate_pages` (`pagination.py` lines 164–225).  With
`auto_paginate=False` it issues one request with `base_params` verbatim
and returns the raw body (lines 174–176); otherwise it runs the page
loop and returns the uniform envelope (rendered with `Envelope.toJ`,
which never contains a `more_starting_after` entry for this strategy). -/
def _auto_paginate_pages (base_params : Params) (data_key : String)
    (limit : Int) (auto_paginate : Bool) (max_items : Option Nat) (page_param : String)
    (resps : List J) : Option (List Params × J) :=
  if !auto_paginate then
    match resps with
    | data :: _ => some ([base_params], data)
    | [] => none
  else
    let p0 := startPage base_params page_param
    (pagesLoop data_key page_param limit max_items resps [] p0
        (setKey (setKey base_params "limit" (.num limit)) page_param (.num p0)) 0).map
      (fun r => (r.1, r.2.toJ))

/-!
Rule resolution, inlined in `server.py`'s tool handlers.  The handlers
index dicts directly (`d[k]`), so a missing key raises (`KeyError`,
mapped to a tool error by the surrounding `except`); we model the
fallible parts in `Except String`.
-/

/-- Python `d[k]`: value on success, `KeyError`/`TypeError` otherwise. -/
def jIndex (d : J) (k : String) : Except String J :=
  match d with
  | .obj kvs =>
      match lookupKey kvs k with
      | some v => Except.ok v
      | none => Except.error ("KeyError: " ++ k)
  | _ => Except.error "TypeError: not a dict"

/-- Python `k in d` for the dict case (`False` on the non-dict bodies the
claims use; the handlers only apply it to decoded JSON objects). -/
def jMember (d : J) (k : String) : Bool :=
  match d with
  | .obj kvs => (lookupKey kvs k).isSome
  | _ => false

/-- Python `x > 0` as used on the assignments `total` field: defined for
numbers and bools, a `TypeError` otherwise. -/
def pyGtZero : J → Except String Bool
  | .num n => Except.ok (0 < n)
  | .bool b => Except.ok b
  | _ => Except.error "TypeError: unorderable"

/-- Python `x == 0` as used on `qualifications["redeemables"]["total"]`:
never raises; only `0` and `False` compare equal to `0`. -/
def pyEqZero : J → Bool
  | .num n => n == 0
  | .bool b => !b
  | _ => false

/-- Python `for x in v` over a decoded JSON value.  The model is
restricted to array values (the only shape the claims exercise; iterating
a non-list would either raise or, for a dict, yield keys on which the
loop bodies below raise `TypeError` at the first subscript). -/
def jElems : J → Except String (List J)
  | .arr xs => Except.ok xs
  | _ => Except.error "TypeError: not iterable"

/-- One iteration of the rule loop in `get_campaign` (`server.py` lines
445–453): fetch `/v1/validation-rules/{rule['rule_id']}` and keep exactly
`rules`, `bundle_rules`, `applicable_to` (the rule's `name` is
deliberately dropped).  Returns the fetched rule id together with the
normalized entry. -/
def resolveCampaignRule (ruleServer : J → J) (rule : J) : Except String (J × J) := do
  let rid ← jIndex rule "rule_id"
  let val_rule := ruleServer rid
  let rules ← jIndex val_rule "rules"
  let bundle ← jIndex val_rule "bundle_rules"
  let appl ← jIndex val_rule "applicable_to"
  pure (rid, J.obj [("rules", rules), ("bundle_rules", bundle), ("applicable_to", appl)])

/-- The `for rule in ...["data"]` loop of `get_campaign`, entry by entry
in list order; the trace component collects the rule ids fetched, in
request order. -/
def resolveCampaignRules (ruleServer : J → J) : List J → Except String (List J × List J)
  | [] => Except.ok ([], [])
  | rule :: rest => do
      let head ← resolveCampaignRule ruleServer rule
      let tail ← resolveCampaignRules ruleServer rest
      pure (head.1 :: tail.1, head.2 :: tail.2)

/-- The validation-rule enrichment step of `get_campaign` (`server.py`
lines 443–456), as a function of the decoded campaign body and of the
rule server (`ruleServer rid` is the decoded body of
`GET /v1/validation-rules/{rid}`).  Returns the rule ids fetched (in
order) and the resulting campaign document. -/
def get_campaign_rules (ruleServer : J → J) (campaign : J) : Except String (List J × J) := do
  let enrich ←
    if jMember campaign "validation_rules_assignments" then do
      let assignments ← jIndex campaign "validation_rules_assignments"
      let total ← jIndex assignments "total"
      pyGtZero total
    else pure false
  if enrich then do
    let assignments ← jIndex campaign "validation_rules_assignments"
    let data ← jIndex assignments "data"
    let entries ← jElems data
    let resolved ← resolveCampaignRules ruleServer entries
    let campaign' :=
      match campaign with
      | .obj kvs =>
          J.obj (setKey (delKey kvs "validation_rules_assignments")
            "assigned_validation_rules" (.arr resolved.2))
      | _ => campaign
    pure (resolved.1, campaign')
  else
    pure ([], campaign)

/-- One iteration of the rule loop in `get_best_deals` (`server.py` lines
1073–1086): fetch the rule, nest the three normalized fields under
`validation_rules_definition`, then read the assignment's own
`validation_status` and `validation_omitted_rules` unconditionally. -/
def resolveDealRule (ruleServer : J → J) (rule : J) : Except String (J × J) := do
  let rid ← jIndex rule "rule_id"
  let val_rule := ruleServer rid
  let rules ← jIndex val_rule "rules"
  let bundle ← jIndex val_rule "bundle_rules"
  let appl ← jIndex val_rule "applicable_to"
  let vstatus ← jIndex rule "validation_status"
  let vomit ← jIndex rule "validation_omitted_rules"
  pure (rid, J.obj [
    ("validation_rules_definition", J.obj [
      ("rules", rules), ("bundle_rules", bundle), ("applicable_to", appl)]),
    ("validation_status", vstatus),
    ("validation_omitted_sub_rules", vomit)])

/-- The `for rule in ...["data"]` loop of `get_best_deals`, in order. -/
def resolveDealRules (ruleServer : J → J) : List J → Except String (List J × List J)
  | [] => Except.ok ([], [])
  | rule :: rest => do
      let head ← resolveDealRule ruleServer rule
      let tail ← resolveDealRules ruleServer rest
      pure (head.1 :: tail.1, head.2 :: tail.2)

/-- The guarded access pattern `d[k] if k in d else None` used for
`banner`/`name`/`campaign_name` in `get_best_deals` (lines 1093–1095). -/
def guardedRead (d : J) (k : String) : Except String J :=
  if jMember d k then jIndex d k else pure .null

/-- Processing of one redeemable in `get_best_deals` (`server.py` lines
1070–1100): resolve its assignments (when the field is present — the
`total` sub-field is never consulted here), then build the output record;
`banner`/`name`/`campaign_name` are guarded with `in`, the other fields
are indexed directly. -/
def buildRedeemable (ruleServer : J → J) (redeemable : J) : Except String (List J × J) := do
  let vrs ←
    if jMember redeemable "validation_rules_assignments" then do
      let assignments ← jIndex redeemable "validation_rules_assignments"
      let data ← jIndex assignments "data"
      let entries ← jElems data
      resolveDealRules ruleServer entries
    else pure ([], [])
  let rid ← jIndex redeemable "id"
  let robj ← jIndex redeemable "object"
  let result ← jIndex redeemable "result"
  let banner ← guardedRead redeemable "banner"
  let name ← guardedRead redeemable "name"
  let cname ← guardedRead redeemable "campaign_name"
  let order ← jIndex redeemable "order"
  pure (vrs.1, J.obj [
    ("id", rid), ("object", robj), ("result", result),
    ("redeemable_details", J.obj [
      ("public_banner", banner), ("alternative_description", name), ("campaign_name", cname)]),
    ("resolved_order", order),
    ("validation_rules", .arr vrs.2)])

/-- The `for redeemable in ...` loop of `get_best_deals`, in order. -/
def buildRedeemables (ruleServer : J → J) : List J → Except String (List J × List J)
  | [] => Except.ok ([], [])
  | r :: rest => do
      let head ← buildRedeemable ruleServer r
      let tail ← buildRedeemables ruleServer rest
      pure (head.1 ++ tail.1, head.2 :: tail.2)

/-- The response-processing part of `get_best_deals` (`server.py` lines
1064–1101), as a function of the decoded `/v1/qualifications` response
body and of the rule server.  Returns the rule ids fetched (in request
order, across redeemables) and the JSON array the tool serializes. -/
def get_best_deals (ruleServer : J → J) (qualifications : J) : Except String (List J × J) := do
  let redeemables ← jIndex qualifications "redeemables"
  let total ← jIndex redeemables "total"
  if pyEqZero total then
    pure ([], J.arr [])
  else do
    let data ← jIndex redeemables "data"
    let rlist ← jElems data
    let built ← buildRedeemables ruleServer rlist
    pure (built.1, J.arr built.2)

/-!
Abbreviations for the fields a paginator reads off a response body, and
basic lemmas about the dict model.
-/

/-- The item batch of a response: `_safe_get(data, [data_key], [])`. -/
def batchOf (dataKey : String) (data : J) : List J :=
  (_safe_get data [dataKey] (.arr [])).asList

/-- The `has_more` flag of a response: `_safe_get(data, ["has_more"], False)`. -/
def hasMoreOf (data : J) : J :=
  _safe_get data ["has_more"] (.bool false)

/-- The timestamp-strategy cursor of an item:
`_safe_get(last, [cursor_field], None)`. -/
def cursorOf (cursorField : String) (item : J) : J :=
  _safe_get item [cursorField] .null

/-- The id-strategy continuation token of a response body:
`_safe_get(data, ["more_starting_after"], None)`. -/
def msaOf (data : J) : J :=
  _safe_get data ["more_starting_after"] .null

theorem lookupKey_setKey_self (p : Params) (k : String) (v : J) :
    lookupKey (setKey p k v) k = some v := by
  induction p with
  | nil => simp [setKey, lookupKey]
  | cons kv rest ih =>
      by_cases h : kv.1 = k <;> simp [setKey, lookupKey, h, ih]

theorem lookupKey_setKey_ne (p : Params) {k k' : String} (v : J) (h : k' ≠ k) :
    lookupKey (setKey p k v) k' = lookupKey p k' := by
  induction p with
  | nil => simp [setKey, lookupKey, h, Ne.symm h]
  | cons kv rest ih =>
      by_cases hk : kv.1 = k
      · simp [setKey, lookupKey, hk, h, Ne.symm h]
      · by_cases hk' : kv.1 = k' <;> simp [setKey, lookupKey, hk, hk', h, Ne.symm h, ih]

theorem sliceToMax_sublist (maxItems : Option Nat) (t : Nat) (items : List J) :
    List.Sublist (sliceToMax maxItems t items) items := by
  cases maxItems with
  | none => simp [sliceToMax]
  | some m => simpa [sliceToMax] using List.take_sublist (m - t) items

theorem mem_of_sliceToMax {maxItems : Option Nat} {t : Nat} {items : List J} {x : J}
    (h : x ∈ sliceToMax maxItems t items) : x ∈ items :=
  (sliceToMax_sublist maxItems t items).subset h

theorem sliceToMax_ne_nil {maxItems : Option Nat} {t : Nat} {items : List J}
    (hni : items ≠ []) (hum : underMax maxItems t = true) :
    sliceToMax maxItems t items ≠ [] := by
  cases maxItems with
  | none => simpa [sliceToMax] using hni
  | some m =>
      have hlt : t < m := by simpa [underMax] using hum
      cases items with
      | nil => exact absurd rfl hni
      | cons a l =>
          have h1 : 1 ≤ m - t := by omega
          simp only [sliceToMax]
          cases hmt : m - t with
          | zero => omega
          | succ k => simp [List.take]

theorem length_sliceToMax_le {m t : Nat} (items : List J) :
    (sliceToMax (some m) t items).length ≤ m - t := by
  simp [sliceToMax]

theorem mem_of_getLast?_eq {α : Type} {l : List α} {x : α} (h : l.getLast? = some x) :
    x ∈ l := by
  have hx : x ∈ l.getLast? := by simp [Option.mem_def, h]
  obtain ⟨hne, rfl⟩ := List.mem_getLast?_eq_getLast hx
  exact List.getLast_mem hne

/-- When the loop condition fails, every paginator loop exits without
consuming a response. -/
theorem tsLoop_stop (dataKey cursorField : String) (autoPaginate : Bool)
    (maxItems : Option Nat) (resps acc : List J) (hm msa : J) (params : Params) (t : Nat)
    (h : (hm.truthy && underMax maxItems t) = false) :
    tsLoop dataKey cursorField autoPaginate maxItems resps acc hm msa params t =
      some ([], tsFinish dataKey acc hm msa) := by
  cases resps <;> simp [tsLoop, h]

theorem idLoop_stop (dataKey : String) (autoPaginate : Bool)
    (maxItems : Option Nat) (resps acc : List J) (hm : J) (params : Params) (t : Nat)
    (h : (hm.truthy && underMax maxItems t) = false) :
    idLoop dataKey autoPaginate maxItems resps acc hm params t =
      some ([], idFinish dataKey acc hm params) := by
  cases resps <;> simp [idLoop, h]

theorem pagesLoop_stop (dataKey pageParam : String) (limit : Int)
    (maxItems : Option Nat) (resps acc : List J) (page : Int) (params : Params) (t : Nat)
    (h : underMax maxItems t = false) :
    pagesLoop dataKey pageParam limit maxItems resps acc page params t =
      some ([], ⟨dataKey, acc, .bool true, none⟩) := by
  cases resps <;> simp [pagesLoop, h]

/-- C1 counterexample: page-number strategy, `limit=2`, `maxItems=3`, two
remote pages of 2 items each (`T = 4 > m = 3`, so more items existed).
The engine returns exactly 3 items but `has_more=false` and no
`more_starting_after` cursor: the last-page heuristic (`len(items) <
limit`, `pagination.py` line 205) fires on the *sliced* batch before the
max-items break (lines 210–212) is reached, contradicting the claim that
the envelope has `hasMore=true` with a valid cursor for every strategy. -/
theorem c1_counterexample :
    (_auto_paginate_pages [] "data" 2 true (some 3) "page"
        [J.obj [("data", .arr [.num 1, .num 2]), ("has_more", .bool true)],
         J.obj [("data", .arr [.num 3, .num 4]), ("has_more", .bool true)]]).map Prod.snd =
      some (J.obj [("object", .str "list"), ("data_ref", .str "data"),
        ("data", .arr [.num 1, .num 2, .num 3]), ("has_more", .bool false)]) := rfl

/-- C3 counterexample: the page-number strategy with `autoPaginate=false`
returns the raw response body unchanged (`pagination.py` lines 174–176),
not a `ListEnvelope`: the returned object has neither an `object: "list"`
entry nor a `has_more` entry. -/
theorem c3_counterexample :
    _auto_paginate_pages [] "data" 10 false none "page" [J.obj [("foo", .num 1)]] =
        some ([[]], J.obj [("foo", .num 1)]) ∧
      lookupKey [("foo", J.num 1)] "object" = none ∧
      lookupKey [("foo", J.num 1)] "has_more" = none :=
  ⟨rfl, rfl, rfl⟩

/-- C6 counterexample: a qualifications response whose redeemable carries
`validation_rules_assignments` with `total = 0` but a non-empty `data`
array.  `get_best_deals` (`server.py` lines 1072–1073) never consults
`total`: it iterates `data` and issues one rule fetch (for `r1`), where
the claim demands zero remote requests whenever `total` equals zero. -/
theorem c6_counterexample :
    ((get_best_deals
        (fun _ => J.obj [("rules", .obj []), ("bundle_rules", .obj []),
          ("applicable_to", .obj [])])
        (J.obj [("redeemables", .obj [("total", .num 1), ("data", .arr [
          J.obj [("id", .str "v1"), ("object", .str "voucher"),
            ("result", .str "APPLICABLE"), ("order", .obj []),
            ("validation_rules_assignments", .obj [("total", .num 0), ("data", .arr [
              J.obj [("rule_id", .str "r1"), ("validation_status", .str "VALID"),
                ("validation_omitted_rules", .arr [])]])])]])])])).toOption.map
      Prod.fst) = some [J.str "r1"] := rfl

/-- C8 counterexample: a campaign whose `validation_rules_assignments`
field is present but lacks the `total` sub-field.  `get_campaign`
(`server.py` line 443) indexes `["total"]` unguarded, so the operation
raises a `KeyError` instead of degrading to "nothing to resolve". -/
theorem c8_counterexample :
    get_campaign_rules (fun _ => J.null)
        (J.obj [("name", .str "c"),
          ("validation_rules_assignments", .obj [("data", .arr [])])]) =
      Except.error "KeyError: total" := rfl

/-- C9 counterexample: timestamp strategy with a caller-supplied
`starting_after` in `base_params`.  The first request issued carries the
caller's value `"STALE"` untouched (`params = base_params.copy()` only
sets `limit` before the loop; `starting_after` is first written from the
engine's cursor *after* page 1), contradicting the claim that every
pagination key is overwritten by engine state on every iteration
including the first. -/
theorem c9_counterexample :
    (_auto_paginate_timestamp [("starting_after", .str "STALE")] "data" "created_at"
        100 true none
        [J.obj [("data", .arr [.obj [("created_at", .str "t1")]]),
          ("has_more", .bool false)]]).map Prod.fst =
      some [[("starting_after", .str "STALE"), ("limit", .num 100)]] := rfl

/-- C10: in `get_best_deals` the assignment fields `validation_status`
and `validation_omitted_rules` are indexed unconditionally (`server.py`
lines 1084–1085), so a redeemable whose assignment entry lacks either
field makes the whole operation fail with a `KeyError` (surfaced as a
tool error) instead of being skipped or degraded. -/
theorem c10_unconditional_status_fields_raise :
    get_best_deals
        (fun _ => J.obj [("rules", .obj []), ("bundle_rules", .obj []),
          ("applicable_to", .obj [])])
        (J.obj [("redeemables", .obj [("total", .num 1), ("data", .arr [
          J.obj [("id", .str "v1"), ("object", .str "voucher"),
            ("result", .str "APPLICABLE"), ("order", .obj []),
            ("validation_rules_assignments", .obj [("total", .num 1), ("data", .arr [
              J.obj [("rule_id", .str "r1"),
                ("validation_omitted_rules", .arr [])]])])]])])]) =
      Except.error "KeyError: validation_status" ∧
    get_best_deals
        (fun _ => J.obj [("rules", .obj []), ("bundle_rules", .obj []),
          ("applicable_to", .obj [])])
        (J.obj [("redeemables", .obj [("total", .num 1), ("data", .arr [
          J.obj [("id", .str "v1"), ("object", .str "voucher"),
            ("result", .str "APPLICABLE"), ("order", .obj []),
            ("validation_rules_assignments", .obj [("total", .num 1), ("data", .arr [
              J.obj [("rule_id", .str "r1"),
                ("validation_status", .str "VALID")]])])]])])]) =
      Except.error "KeyError: validation_omitted_rules" :=
  ⟨rfl, rfl⟩


/-- C4: in the page-number strategy with `autoPaginate=true`, at any loop
state: (i) a page with zero items terminates pagination right after that
page; (ii) a non-empty page whose item count is below the requested
`limit` also terminates right after that page (last-page heuristic);
(iii) for a positive `limit`, a page returning exactly `limit` items
continues to the next page number (incrementing the page parameter)
unless `maxItems` has been reached. -/
theorem c4_page_number_termination :
    (∀ (dataKey pageParam : String) (limit : Int) (maxItems : Option Nat)
        (rest acc : List J) (page : Int) (params : Params) (t : Nat) (d : J),
      underMax maxItems t = true →
      batchOf dataKey d = [] →
      pagesLoop dataKey pageParam limit maxItems (d :: rest) acc page params t =
        some ([params], ⟨dataKey, acc, .bool false, none⟩)) ∧
    (∀ (dataKey pageParam : String) (limit : Int) (maxItems : Option Nat)
        (rest acc : List J) (page : Int) (params : Params) (t : Nat) (d : J),
      underMax maxItems t = true →
      batchOf dataKey d ≠ [] →
      ((batchOf dataKey d).length : Int) < limit →
      pagesLoop dataKey pageParam limit maxItems (d :: rest) acc page params t =
        some ([params],
          ⟨dataKey, acc ++ sliceToMax maxItems t (batchOf dataKey d), .bool false, none⟩)) ∧
    (∀ (dataKey pageParam : String) (limit : Int) (maxItems : Option Nat)
        (rest acc : List J) (page : Int) (params : Params) (t : Nat) (d : J),
      underMax maxItems t = true →
      0 < limit →
      ((batchOf dataKey d).length : Int) = limit →
      (maxItems = none ∨ ∃ m, maxItems = some m ∧ t + (batchOf dataKey d).length < m) →
      pagesLoop dataKey pageParam limit maxItems (d :: rest) acc page params t =
        (pagesLoop dataKey pageParam limit maxItems rest (acc ++ batchOf dataKey d)
            (page + 1) (setKey params pageParam (.num (page + 1)))
            (t + (batchOf dataKey d).length)).map
          (fun r => (params :: r.1, r.2))) := by
  refine ⟨?_, ?_, ?_⟩
  · intro dataKey pageParam limit maxItems rest acc page params t d hum hempty
    simp only [batchOf] at hempty
    simp [pagesLoop, hum, hempty]
  · intro dataKey pageParam limit maxItems rest acc page params t d hum hne hshort
    simp only [batchOf] at hne hshort ⊢
    rcases hb : (_safe_get d [dataKey] (J.arr [])).asList with _ | ⟨a, l⟩
    · exact absurd hb hne
    · rw [hb] at hshort
      have hslice : ((sliceToMax maxItems t (a :: l)).length : Int) < limit := by
        have hle : (sliceToMax maxItems t (a :: l)).length ≤ (a :: l).length :=
          (sliceToMax_sublist maxItems t (a :: l)).length_le
        omega
      simp [pagesLoop, hum, hb, hslice]
  · intro dataKey pageParam limit maxItems rest acc page params t d hum hpos hlen hmax
    simp only [batchOf] at hlen ⊢
    have hslice : sliceToMax maxItems t ((_safe_get d [dataKey] (J.arr [])).asList) =
        (_safe_get d [dataKey] (J.arr [])).asList := by
      rcases hmax with hnone | ⟨m, hm, hlt⟩
      · rw [hnone]; rfl
      · simp only [batchOf] at hlt
        rw [hm]
        exact List.take_of_length_le (by omega)
    have hne : ((_safe_get d [dataKey] (J.arr [])).asList).isEmpty = false := by
      rcases hb : (_safe_get d [dataKey] (J.arr [])).asList with _ | ⟨a, l⟩
      · rw [hb] at hlen; simp at hlen; omega
      · rfl
    have hnotshort : ¬ ((((_safe_get d [dataKey] (J.arr [])).asList).length : Int) < limit) := by
      omega
    have hcont : underMax maxItems (t + ((_safe_get d [dataKey] (J.arr [])).asList).length)
        = true := by
      rcases hmax with hnone | ⟨m, hm, hlt⟩
      · rw [hnone]; rfl
      · simp only [batchOf] at hlt
        rw [hm]
        simpa [underMax] using hlt
    simp [pagesLoop, hum, hne, hslice, hnotshort, hcont]

/-- Witness for C4 at concrete inputs: an empty page stops the loop
(part i), and a full page of `limit = 2` items with no cap moves on to
page 2 (part iii). -/
theorem c4_page_number_termination_witness :
    pagesLoop "data" "page" 2 none [J.obj [("data", .arr [])]] [] 1 [] 0 =
        some ([[]], ⟨"data", [], .bool false, none⟩) ∧
      pagesLoop "data" "page" 2 none
          [J.obj [("data", .arr [.num 1, .num 2])], J.obj [("data", .arr [])]] [] 1 [] 0 =
        (pagesLoop "data" "page" 2 none [J.obj [("data", .arr [])]] [.num 1, .num 2] 2
            [("page", .num 2)] 2).map (fun r => ([] :: r.1, r.2)) :=
  ⟨c4_page_number_termination.1 "data" "page" 2 none [] [] 1 [] 0
      (J.obj [("data", .arr [])]) rfl rfl,
    c4_page_number_termination.2.2 "data" "page" 2 none [J.obj [("data", .arr [])]] [] 1 [] 0
      (J.obj [("data", .arr [.num 1, .num 2])]) rfl (by decide) rfl (Or.inl rfl)⟩

/-- C5: in both cursor-follow strategies with `autoPaginate=true`, a page
that reports a truthy `has_more` but whose continuation token is absent
or falsy (the `cursor_field` on the items for the timestamp strategy; the
body's `more_starting_after` for the id strategy) ends the run right
after that page — the remaining responses are never requested — and the
envelope reports `has_more=false` with no cursor. -/
theorem c5_defensive_cursor_stop :
    (∀ (dataKey cursorField : String) (maxItems : Option Nat)
        (rest acc : List J) (hm msa : J) (params : Params) (t : Nat) (d : J),
      (hm.truthy && underMax maxItems t) = true →
      (hasMoreOf d).truthy = true →
      batchOf dataKey d ≠ [] →
      (∀ x ∈ batchOf dataKey d, (cursorOf cursorField x).truthy = false) →
      ∃ e, tsLoop dataKey cursorField true maxItems (d :: rest) acc hm msa params t =
          some ([params], e) ∧ e.hasMore = J.bool false ∧ e.moreStartingAfter = none) ∧
    (∀ (dataKey : String) (maxItems : Option Nat)
        (rest acc : List J) (hm : J) (params : Params) (t : Nat) (d : J),
      (hm.truthy && underMax maxItems t) = true →
      (hasMoreOf d).truthy = true →
      (msaOf d).truthy = false →
      ∃ e, idLoop dataKey true maxItems (d :: rest) acc hm params t =
          some ([params], e) ∧ e.hasMore = J.bool false ∧ e.moreStartingAfter = none) := by
  constructor
  · intro dataKey cursorField maxItems rest acc hm msa params t d hcond hhm hne hcur
    have hum : underMax maxItems t = true := (Bool.and_eq_true _ _ |>.mp hcond).2
    have hsne : sliceToMax maxItems t (batchOf dataKey d) ≠ [] :=
      sliceToMax_ne_nil hne hum
    obtain ⟨last, hlast⟩ : ∃ l, (sliceToMax maxItems t (batchOf dataKey d)).getLast? = some l := by
      rcases hs : sliceToMax maxItems t (batchOf dataKey d) with _ | ⟨a, l⟩
      · exact absurd hs hsne
      · exact ⟨(a :: l).getLast (by simp), List.getLast?_eq_getLast _ _⟩
    have hmem : last ∈ batchOf dataKey d := mem_of_sliceToMax (mem_of_getLast?_eq hlast)
    have hcurlast : (cursorOf cursorField last).truthy = false := hcur last hmem
    simp only [batchOf] at hlast
    simp only [cursorOf] at hcurlast
    simp only [hasMoreOf] at hhm
    refine ⟨tsFinish dataKey
        (acc ++ sliceToMax maxItems t ((_safe_get d [dataKey] (J.arr [])).asList))
        (J.bool false) (_safe_get last [cursorField] J.null), ?_, rfl, ?_⟩
    · simp [tsLoop, hcond, hhm, hlast, hcurlast]
    · simp [tsFinish, J.truthy]
  · intro dataKey maxItems rest acc hm params t d hcond hhm hmsa
    simp only [hasMoreOf] at hhm
    simp only [msaOf] at hmsa
    refine ⟨idFinish dataKey
        (acc ++ sliceToMax maxItems t ((_safe_get d [dataKey] (J.arr [])).asList))
        (J.bool false) params, ?_, rfl, ?_⟩
    · simp [idLoop, hcond, hhm, hmsa]
    · simp [idFinish, J.truthy]

/-- Witness for C5 at concrete inputs: one page with `has_more=true`
whose single item has no cursor field (timestamp strategy), and one page
with `has_more=true` and no `more_starting_after` in the body (id
strategy); both runs stop with `has_more=false` and no cursor. -/
theorem c5_defensive_cursor_stop_witness :
    (∃ e, tsLoop "data" "id" true none
        [J.obj [("data", .arr [.obj [("x", .num 1)]]), ("has_more", .bool true)]]
        [] (.bool true) .null [] 0 = some ([[]], e) ∧
        e.hasMore = J.bool false ∧ e.moreStartingAfter = none) ∧
    (∃ e, idLoop "data" true none
        [J.obj [("data", .arr [.obj [("x", .num 1)]]), ("has_more", .bool true)]]
        [] (.bool true) [] 0 = some ([[]], e) ∧
        e.hasMore = J.bool false ∧ e.moreStartingAfter = none) :=
  ⟨c5_defensive_cursor_stop.1 "data" "id" none [] [] (.bool true) .null [] 0
      (J.obj [("data", .arr [.obj [("x", .num 1)]]), ("has_more", .bool true)])
      rfl rfl (List.cons_ne_nil _ _)
      (by
        intro x hx
        have hb : batchOf "data"
            (J.obj [("data", .arr [.obj [("x", .num 1)]]), ("has_more", .bool true)]) =
            [J.obj [("x", .num 1)]] := rfl
        rw [hb, List.mem_singleton] at hx
        subst hx
        rfl),
    c5_defensive_cursor_stop.2 "data" none [] [] (.bool true) [] 0
      (J.obj [("data", .arr [.obj [("x", .num 1)]]), ("has_more", .bool true)])
      rfl rfl rfl⟩

/-- A key that `jMember` misses reads as the default through `_safe_get`. -/
theorem safe_get_of_not_member {d : J} {k : String} (dflt : J)
    (h : jMember d k = false) : _safe_get d [k] dflt = dflt := by
  cases d with
  | obj kvs =>
      cases hl : lookupKey kvs k with
      | none => simp [_safe_get, hl]
      | some v => simp [jMember, hl] at h
  | null => rfl
  | bool b => rfl
  | num n => rfl
  | str s => rfl
  | arr xs => rfl

/-- A successful `jIndex` implies `jMember`. -/
theorem jMember_of_jIndex_ok {d : J} {k : String} {v : J}
    (h : jIndex d k = Except.ok v) : jMember d k = true := by
  cases d with
  | obj kvs =>
      cases hl : lookupKey kvs k with
      | none => simp [jIndex, hl] at h
      | some w => simp [jMember, hl]
  | null => simp [jIndex] at h
  | bool b => simp [jIndex] at h
  | num n => simp [jIndex] at h
  | str s => simp [jIndex] at h
  | arr xs => simp [jIndex] at h

/-- The guarded reads (`d[k] if k in d else None`) in `get_best_deals`
always succeed. -/
theorem guarded_read_ok (d : J) (k : String) :
    ∃ v, guardedRead d k = Except.ok v := by
  unfold guardedRead
  by_cases h : jMember d k = true
  · cases d with
    | obj kvs =>
        cases hl : lookupKey kvs k with
        | none => simp [jMember, hl] at h
        | some v => exact ⟨v, by simp [h, jIndex, hl]⟩
    | null => simp [jMember] at h
    | bool b => simp [jMember] at h
    | num n => simp [jMember] at h
    | str s => simp [jMember] at h
    | arr xs => simp [jMember] at h
  · refine ⟨J.null, ?_⟩
    rw [Bool.not_eq_true] at h
    simp [h]
    rfl

/-- C6 (amended): rule resolution issues zero remote requests and
resolves to nothing when (i) the campaign's assignments field is absent,
or (ii) it is present with `total = 0` (in both cases, `get_campaign`
returns the campaign unchanged).  In the best-deals path the code never
consults `total`: zero requests and an empty `validation_rules` sequence
result when (iii) the assignments field is absent from the redeemable or
(iv) its `data` array is empty — in particular for every well-formed
response with `total = 0`. -/
theorem c6_amended_short_circuit :
    (∀ (srv : J → J) (campaign : J),
      jMember campaign "validation_rules_assignments" = false →
      get_campaign_rules srv campaign = Except.ok ([], campaign)) ∧
    (∀ (srv : J → J) (campaign A : J),
      jIndex campaign "validation_rules_assignments" = Except.ok A →
      jIndex A "total" = Except.ok (.num 0) →
      get_campaign_rules srv campaign = Except.ok ([], campaign)) ∧
    (∀ (srv : J → J) (red i o rz od : J),
      jMember red "validation_rules_assignments" = false →
      jIndex red "id" = Except.ok i →
      jIndex red "object" = Except.ok o →
      jIndex red "result" = Except.ok rz →
      jIndex red "order" = Except.ok od →
      ∃ out, buildRedeemable srv red = Except.ok ([], out) ∧
        jIndex out "validation_rules" = Except.ok (.arr [])) ∧
    (∀ (srv : J → J) (red A i o rz od : J),
      jIndex red "validation_rules_assignments" = Except.ok A →
      jIndex A "data" = Except.ok (.arr []) →
      jIndex red "id" = Except.ok i →
      jIndex red "object" = Except.ok o →
      jIndex red "result" = Except.ok rz →
      jIndex red "order" = Except.ok od →
      ∃ out, buildRedeemable srv red = Except.ok ([], out) ∧
        jIndex out "validation_rules" = Except.ok (.arr [])) := by
  refine ⟨?_, ?_, ?_, ?_⟩
  · intro srv campaign hmem
    simp [get_campaign_rules, hmem, Bind.bind, Except.bind, Pure.pure, Except.pure]
  · intro srv campaign A hA htot
    have hmem := jMember_of_jIndex_ok hA
    simp [get_campaign_rules, hmem, hA, htot, pyGtZero,
      Bind.bind, Except.bind, Pure.pure, Except.pure]
  · intro srv red i o rz od hmem hid hobj hres hord
    obtain ⟨b, hb⟩ := guarded_read_ok red "banner"
    obtain ⟨nm, hnm⟩ := guarded_read_ok red "name"
    obtain ⟨cn, hcn⟩ := guarded_read_ok red "campaign_name"
    refine ⟨J.obj [("id", i), ("object", o), ("result", rz),
      ("redeemable_details", J.obj [("public_banner", b),
        ("alternative_description", nm), ("campaign_name", cn)]),
      ("resolved_order", od), ("validation_rules", .arr [])], ?_, ?_⟩
    · simp [buildRedeemable, hmem, hid, hobj, hres, hord, hb, hnm, hcn,
        Bind.bind, Except.bind, Pure.pure, Except.pure]
    · simp [jIndex, lookupKey]
  · intro srv red A i o rz od hA hdata hid hobj hres hord
    have hmem := jMember_of_jIndex_ok hA
    obtain ⟨b, hb⟩ := guarded_read_ok red "banner"
    obtain ⟨nm, hnm⟩ := guarded_read_ok red "name"
    obtain ⟨cn, hcn⟩ := guarded_read_ok red "campaign_name"
    refine ⟨J.obj [("id", i), ("object", o), ("result", rz),
      ("redeemable_details", J.obj [("public_banner", b),
        ("alternative_description", nm), ("campaign_name", cn)]),
      ("resolved_order", od), ("validation_rules", .arr [])], ?_, ?_⟩
    · simp [buildRedeemable, hmem, hA, hdata, hid, hobj, hres, hord, hb, hnm, hcn,
        jElems, resolveDealRules, Bind.bind, Except.bind, Pure.pure, Except.pure]
    · simp [jIndex, lookupKey]

/-- Witness for C6 at concrete inputs: a campaign with no assignments
field, and a campaign whose assignments carry `total = 0`; both resolve
with zero fetches and the campaign unchanged. -/
theorem c6_amended_short_circuit_witness :
    get_campaign_rules (fun _ => J.null) (J.obj [("name", .str "c")]) =
        Except.ok ([], J.obj [("name", .str "c")]) ∧
      get_campaign_rules (fun _ => J.null)
          (J.obj [("validation_rules_assignments",
            .obj [("total", .num 0), ("data", .arr [.obj [("rule_id", .str "r")]])])]) =
        Except.ok ([], J.obj [("validation_rules_assignments",
          .obj [("total", .num 0), ("data", .arr [.obj [("rule_id", .str "r")]])])]) :=
  ⟨c6_amended_short_circuit.1 (fun _ => J.null) (J.obj [("name", .str "c")]) rfl,
    c6_amended_short_circuit.2.1 (fun _ => J.null) _
      (J.obj [("total", .num 0), ("data", .arr [.obj [("rule_id", .str "r")]])]) rfl rfl⟩

theorem sliceToMax_nil (maxItems : Option Nat) (t : Nat) :
    sliceToMax maxItems t [] = [] := by
  cases maxItems <;> simp [sliceToMax]

/-- C8 (amended): malformed responses degrade permissively in the
pagination engine and in the assignments-field detection: (i) a response
with no item array under `data_key` yields an empty items list, not an
error; (ii) a page whose items lack the cursor field ends pagination
with `has_more=false`; (iii) a campaign with no assignments field
resolves to nothing without raising.  (An absent `total` *sub-field*
under a present assignments field, by contrast, raises — see the
counterexample.) -/
theorem c8_amended_permissive_degradation :
    (∀ (base : Params) (dataKey cursorField : String) (limit : Int)
        (autoPaginate : Bool) (maxItems : Option Nat) (d : J),
      jMember d dataKey = false →
      ∃ tr e, _auto_paginate_timestamp base dataKey cursorField limit autoPaginate maxItems
          [d] = some (tr, e) ∧ e.items = []) ∧
    (∀ (base : Params) (dataKey cursorField : String) (limit : Int)
        (maxItems : Option Nat) (d : J),
      underMax maxItems 0 = true →
      (hasMoreOf d).truthy = true →
      batchOf dataKey d ≠ [] →
      (∀ x ∈ batchOf dataKey d, jMember x cursorField = false) →
      ∃ e, _auto_paginate_timestamp base dataKey cursorField limit true maxItems [d] =
          some ([setKey base "limit" (.num limit)], e) ∧
        e.hasMore = J.bool false ∧ e.moreStartingAfter = none) ∧
    (∀ (srv : J → J) (campaign : J),
      jMember campaign "validation_rules_assignments" = false →
      get_campaign_rules srv campaign = Except.ok ([], campaign)) := by
  refine ⟨?_, ?_, ?_⟩
  · intro base dataKey cursorField limit autoPaginate maxItems d hmem
    have hbatch : (_safe_get d [dataKey] (J.arr [])).asList = [] := by
      rw [safe_get_of_not_member _ hmem]
      rfl
    unfold _auto_paginate_timestamp
    by_cases hum : underMax maxItems 0 = true
    · have hcond : ((J.bool true).truthy && underMax maxItems 0) = true := by
        simp [J.truthy, hum]
      simp only [tsLoop, hcond, if_true, hbatch, sliceToMax_nil, List.append_nil,
        List.getLast?_nil]
      split
      · exact ⟨_, _, rfl, rfl⟩
      · exact ⟨_, _, rfl, rfl⟩
    · have hcond : ((J.bool true).truthy && underMax maxItems 0) = false := by
        simp [J.truthy]
        exact Bool.not_eq_true _ ▸ (by simpa using hum)
      rw [tsLoop_stop _ _ _ _ _ _ _ _ _ _ hcond]
      exact ⟨_, _, rfl, rfl⟩
  · intro base dataKey cursorField limit maxItems d hum hhm hne hcur
    have hcond : ((J.bool true).truthy && underMax maxItems 0) = true := by
      simp [J.truthy, hum]
    have hsne : sliceToMax maxItems 0 (batchOf dataKey d) ≠ [] :=
      sliceToMax_ne_nil hne hum
    obtain ⟨last, hlast⟩ :
        ∃ l, (sliceToMax maxItems 0 (batchOf dataKey d)).getLast? = some l := by
      rcases hs : sliceToMax maxItems 0 (batchOf dataKey d) with _ | ⟨a, l⟩
      · exact absurd hs hsne
      · exact ⟨(a :: l).getLast (by simp), List.getLast?_eq_getLast _ _⟩
    have hmem : last ∈ batchOf dataKey d := mem_of_sliceToMax (mem_of_getLast?_eq hlast)
    have hcurlast : (_safe_get last [cursorField] J.null).truthy = false := by
      rw [safe_get_of_not_member _ (hcur last hmem)]
      rfl
    simp only [batchOf] at hlast
    simp only [hasMoreOf] at hhm
    refine ⟨tsFinish dataKey
        ([] ++ sliceToMax maxItems 0 ((_safe_get d [dataKey] (J.arr [])).asList))
        (J.bool false) (_safe_get last [cursorField] J.null), ?_, rfl, ?_⟩
    · unfold _auto_paginate_timestamp
      simp [tsLoop, hcond, hhm, hlast, hcurlast]
    · simp [tsFinish, J.truthy]
  · intro srv campaign hmem
    simp [get_campaign_rules, hmem, Bind.bind, Except.bind, Pure.pure, Except.pure]

/-- Witness for C8 at concrete inputs: a page body with no `data` array
yields an empty items list; a page whose item lacks the cursor field
stops with `has_more=false`; a campaign body with no assignments field
resolves without error. -/
theorem c8_amended_permissive_degradation_witness :
    (∃ tr e, _auto_paginate_timestamp [] "data" "id" 5 true none
        [J.obj [("has_more", .bool false)]] = some (tr, e) ∧ e.items = []) ∧
      (∃ e, _auto_paginate_timestamp [] "data" "id" 5 true none
          [J.obj [("data", .arr [.obj [("x", .num 1)]]), ("has_more", .bool true)]] =
          some ([setKey [] "limit" (.num 5)], e) ∧
        e.hasMore = J.bool false ∧ e.moreStartingAfter = none) ∧
      get_campaign_rules (fun _ => J.null) (J.obj []) = Except.ok ([], J.obj []) :=
  ⟨c8_amended_permissive_degradation.1 [] "data" "id" 5 true none
      (J.obj [("has_more", .bool false)]) rfl,
    c8_amended_permissive_degradation.2.1 [] "data" "id" 5 none
      (J.obj [("data", .arr [.obj [("x", .num 1)]]), ("has_more", .bool true)])
      rfl rfl (List.cons_ne_nil _ _)
      (by
        intro x hx
        have hb : batchOf "data"
            (J.obj [("data", .arr [.obj [("x", .num 1)]]), ("has_more", .bool true)]) =
            [J.obj [("x", .num 1)]] := rfl
        rw [hb, List.mem_singleton] at hx
        subst hx
        rfl),
    c8_amended_permissive_degradation.2.2 (fun _ => J.null) (J.obj []) rfl⟩

/-- The campaign rule loop resolves entry by entry, in order, each entry
to exactly the three normalized fields. -/
theorem resolveCampaignRules_ok (srv : J → J) (entries : List J)
    (ridF rulesF bundleF applF : J → J)
    (h : ∀ e ∈ entries,
      jIndex e "rule_id" = Except.ok (ridF e) ∧
      jIndex (srv (ridF e)) "rules" = Except.ok (rulesF e) ∧
      jIndex (srv (ridF e)) "bundle_rules" = Except.ok (bundleF e) ∧
      jIndex (srv (ridF e)) "applicable_to" = Except.ok (applF e)) :
    resolveCampaignRules srv entries =
      Except.ok (entries.map ridF, entries.map (fun e => J.obj [("rules", rulesF e),
        ("bundle_rules", bundleF e), ("applicable_to", applF e)])) := by
  induction entries with
  | nil => rfl
  | cons e rest ih =>
      obtain ⟨h1, h2, h3, h4⟩ := h e (List.mem_cons_self e rest)
      have ih' := ih (fun x hx => h x (List.mem_cons_of_mem e hx))
      simp [resolveCampaignRules, resolveCampaignRule, h1, h2, h3, h4, ih',
        Bind.bind, Except.bind, Pure.pure, Except.pure]

/-- The best-deals rule loop resolves entry by entry, in order, each
entry to the nested definition triple plus the two status fields. -/
theorem resolveDealRules_ok (srv : J → J) (entries : List J)
    (ridF rulesF bundleF applF statusF omitF : J → J)
    (h : ∀ e ∈ entries,
      jIndex e "rule_id" = Except.ok (ridF e) ∧
      jIndex (srv (ridF e)) "rules" = Except.ok (rulesF e) ∧
      jIndex (srv (ridF e)) "bundle_rules" = Except.ok (bundleF e) ∧
      jIndex (srv (ridF e)) "applicable_to" = Except.ok (applF e) ∧
      jIndex e "validation_status" = Except.ok (statusF e) ∧
      jIndex e "validation_omitted_rules" = Except.ok (omitF e)) :
    resolveDealRules srv entries =
      Except.ok (entries.map ridF, entries.map (fun e => J.obj [
        ("validation_rules_definition", J.obj [("rules", rulesF e),
          ("bundle_rules", bundleF e), ("applicable_to", applF e)]),
        ("validation_status", statusF e),
        ("validation_omitted_sub_rules", omitF e)])) := by
  induction entries with
  | nil => rfl
  | cons e rest ih =>
      obtain ⟨h1, h2, h3, h4, h5, h6⟩ := h e (List.mem_cons_self e rest)
      have ih' := ih (fun x hx => h x (List.mem_cons_of_mem e hx))
      simp [resolveDealRules, resolveDealRule, h1, h2, h3, h4, h5, h6, ih',
        Bind.bind, Except.bind, Pure.pure, Except.pure]

/-- C7: with `n` assignment entries on the parent resource, rule
resolution issues exactly one rule fetch per entry, in assignment-list
order (the fetch trace is the entries' `rule_id`s in order), and the
resolved output preserves that order.  In the campaign path each
resolved entry is exactly `{rules, bundle_rules, applicable_to}` — no
`name` field; in the best-deals path each entry additionally carries the
assignment's own `validation_status` and omitted-rules fields. -/
theorem c7_resolution_order_and_shape :
    (∀ (srv : J → J) (kvs A : Params) (entries : List J)
        (ridF rulesF bundleF applF : J → J) (n : Int),
      lookupKey kvs "validation_rules_assignments" = some (J.obj A) →
      lookupKey A "total" = some (.num n) →
      0 < n →
      lookupKey A "data" = some (.arr entries) →
      (∀ e ∈ entries,
        jIndex e "rule_id" = Except.ok (ridF e) ∧
        jIndex (srv (ridF e)) "rules" = Except.ok (rulesF e) ∧
        jIndex (srv (ridF e)) "bundle_rules" = Except.ok (bundleF e) ∧
        jIndex (srv (ridF e)) "applicable_to" = Except.ok (applF e)) →
      get_campaign_rules srv (J.obj kvs) =
        Except.ok (entries.map ridF,
          J.obj (setKey (delKey kvs "validation_rules_assignments")
            "assigned_validation_rules"
            (.arr (entries.map (fun e => J.obj [("rules", rulesF e),
              ("bundle_rules", bundleF e), ("applicable_to", applF e)])))))) ∧
    (∀ (srv : J → J) (red : J) (A : Params) (entries : List J)
        (ridF rulesF bundleF applF statusF omitF : J → J) (i o rz od : J),
      jIndex red "validation_rules_assignments" = Except.ok (J.obj A) →
      lookupKey A "data" = some (.arr entries) →
      jIndex red "id" = Except.ok i →
      jIndex red "object" = Except.ok o →
      jIndex red "result" = Except.ok rz →
      jIndex red "order" = Except.ok od →
      (∀ e ∈ entries,
        jIndex e "rule_id" = Except.ok (ridF e) ∧
        jIndex (srv (ridF e)) "rules" = Except.ok (rulesF e) ∧
        jIndex (srv (ridF e)) "bundle_rules" = Except.ok (bundleF e) ∧
        jIndex (srv (ridF e)) "applicable_to" = Except.ok (applF e) ∧
        jIndex e "validation_status" = Except.ok (statusF e) ∧
        jIndex e "validation_omitted_rules" = Except.ok (omitF e)) →
      ∃ out, buildRedeemable srv red = Except.ok (entries.map ridF, out) ∧
        jIndex out "validation_rules" = Except.ok (.arr (entries.map (fun e => J.obj [
          ("validation_rules_definition", J.obj [("rules", rulesF e),
            ("bundle_rules", bundleF e), ("applicable_to", applF e)]),
          ("validation_status", statusF e),
          ("validation_omitted_sub_rules", omitF e)])))) := by
  constructor
  · intro srv kvs A entries ridF rulesF bundleF applF n hA htot hn hdata hent
    have hmem : jMember (J.obj kvs) "validation_rules_assignments" = true := by
      simp [jMember, hA]
    have hres := resolveCampaignRules_ok srv entries ridF rulesF bundleF applF hent
    have hdec : decide (0 < n) = true := decide_eq_true hn
    simp [get_campaign_rules, hmem, jIndex, hA, htot, hdata, jElems, hres, pyGtZero, hdec,
      Bind.bind, Except.bind, Pure.pure, Except.pure, Functor.map, Except.map]
  · intro srv red A entries ridF rulesF bundleF applF statusF omitF i o rz od
      hA hdata hid hobj hres hord hent
    have hmem := jMember_of_jIndex_ok hA
    have hrules := resolveDealRules_ok srv entries ridF rulesF bundleF applF statusF omitF hent
    obtain ⟨b, hb⟩ := guarded_read_ok red "banner"
    obtain ⟨nm, hnm⟩ := guarded_read_ok red "name"
    obtain ⟨cn, hcn⟩ := guarded_read_ok red "campaign_name"
    refine ⟨J.obj [("id", i), ("object", o), ("result", rz),
      ("redeemable_details", J.obj [("public_banner", b),
        ("alternative_description", nm), ("campaign_name", cn)]),
      ("resolved_order", od), ("validation_rules", .arr (entries.map (fun e => J.obj [
        ("validation_rules_definition", J.obj [("rules", rulesF e),
          ("bundle_rules", bundleF e), ("applicable_to", applF e)]),
        ("validation_status", statusF e),
        ("validation_omitted_sub_rules", omitF e)])))], ?_, ?_⟩
    · have hdataIdx : jIndex (J.obj A) "data" = Except.ok (.arr entries) := by
        simp [jIndex, hdata]
      simp [buildRedeemable, hmem, hA, hdataIdx, hid, hobj, hres, hord, hb, hnm, hcn,
        jElems, hrules, Bind.bind, Except.bind, Pure.pure, Except.pure]
    · simp [jIndex, lookupKey]

/-- Witness for C7 at a concrete input: two assignment entries `r1, r2`
produce exactly two fetches, in order `r1` then `r2`, and the resolved
array preserves that order with exactly the three normalized fields. -/
theorem c7_resolution_order_and_shape_witness :
    get_campaign_rules
        (fun rid => J.obj [("rules", rid), ("bundle_rules", .obj []),
          ("applicable_to", .arr [])])
        (J.obj [("validation_rules_assignments", .obj [("total", .num 2), ("data", .arr
          [.obj [("rule_id", .str "r1")], .obj [("rule_id", .str "r2")]])])]) =
      Except.ok ([.str "r1", .str "r2"],
        J.obj [("assigned_validation_rules", .arr [
          J.obj [("rules", .str "r1"), ("bundle_rules", .obj []), ("applicable_to", .arr [])],
          J.obj [("rules", .str "r2"), ("bundle_rules", .obj []),
            ("applicable_to", .arr [])]])]) := by
  have h := c7_resolution_order_and_shape.1
    (fun rid => J.obj [("rules", rid), ("bundle_rules", .obj []), ("applicable_to", .arr [])])
    [("validation_rules_assignments", J.obj [("total", .num 2), ("data", .arr
      [.obj [("rule_id", .str "r1")], .obj [("rule_id", .str "r2")]])])]
    [("total", J.num 2), ("data", J.arr
      [.obj [("rule_id", .str "r1")], .obj [("rule_id", .str "r2")]])]
    [J.obj [("rule_id", .str "r1")], J.obj [("rule_id", .str "r2")]]
    (fun e => _safe_get e ["rule_id"] .null) (fun e => _safe_get e ["rule_id"] .null)
    (fun _ => .obj []) (fun _ => .arr []) 2
    rfl rfl (by decide) rfl
    (by
      intro e he
      rw [List.mem_cons, List.mem_singleton] at he
      rcases he with h | h <;> subst h <;> exact ⟨rfl, rfl, rfl, rfl⟩)
  exact h

/-- Trace structure of the timestamp loop: the first request (if any) is
sent with the entry parameters; any key other than `starting_after` keeps
its value across all issued requests; and each subsequent request's
parameters are the previous ones with `starting_after` overwritten by a
truthy engine cursor. -/
theorem tsLoop_trace (dataKey cursorField : String) (ap : Bool) (maxI : Option Nat) :
    ∀ (resps acc : List J) (hm msa : J) (params : Params) (t : Nat)
      (tr : List Params) (e : Envelope),
      tsLoop dataKey cursorField ap maxI resps acc hm msa params t = some (tr, e) →
      (tr = [] ∨ tr.head? = some params) ∧
      (∀ (k : String), k ≠ "starting_after" → ∀ v, lookupKey params k = some v →
        ∀ p ∈ tr, lookupKey p k = some v) ∧
      List.Chain' (fun p q => ∃ c, c.truthy = true ∧ q = setKey p "starting_after" c) tr := by
  intro resps
  induction resps with
  | nil =>
      intro acc hm msa params t tr e hres
      simp only [tsLoop] at hres
      split at hres
      · exact absurd hres (by simp)
      · obtain ⟨rfl, rfl⟩ : tr = [] ∧ e = tsFinish dataKey acc hm msa := by
          simpa [eq_comm] using hres
        exact ⟨Or.inl rfl, by simp, by simp⟩
  | cons d rest ih =>
      intro acc hm msa params t tr e hres
      simp only [tsLoop] at hres
      split at hres
      case isFalse =>
        obtain ⟨rfl, rfl⟩ : tr = [] ∧ e = tsFinish dataKey acc hm msa := by
          simpa [eq_comm] using hres
        exact ⟨Or.inl rfl, by simp, by simp⟩
      case isTrue hcond =>
        split at hres
        case isTrue hbreak =>
          obtain ⟨rfl, rfl⟩ : tr = [params] ∧ e = tsFinish dataKey
              (acc ++ sliceToMax maxI t (_safe_get d [dataKey] (J.arr [])).asList)
              (_safe_get d ["has_more"] (J.bool false)) msa := by
            simpa [eq_comm] using hres
          refine ⟨Or.inr rfl, ?_, by simp⟩
          intro k hk v hv p hp
          rw [List.mem_singleton] at hp
          subst hp
          exact hv
        case isFalse hbreak =>
          split at hres
          case h_1 last hlast =>
            split at hres
            case isTrue htruthy =>
              rcases hmap : tsLoop dataKey cursorField ap maxI rest
                  (acc ++ sliceToMax maxI t (_safe_get d [dataKey] (J.arr [])).asList)
                  (_safe_get d ["has_more"] (J.bool false))
                  (_safe_get last [cursorField] J.null)
                  (setKey params "starting_after" (_safe_get last [cursorField] J.null))
                  (t + (sliceToMax maxI t (_safe_get d [dataKey] (J.arr [])).asList).length)
                with _ | ⟨tr', e'⟩
              · rw [hmap] at hres
                exact absurd hres (by simp)
              · rw [hmap] at hres
                obtain ⟨rfl, rfl⟩ : tr = params :: tr' ∧ e = e' := by
                  simpa [eq_comm] using hres
                obtain ⟨hhead, hpres, hchain⟩ := ih _ _ _ _ _ _ _ hmap
                refine ⟨Or.inr rfl, ?_, ?_⟩
                · intro k hk v hv p hp
                  rw [List.mem_cons] at hp
                  rcases hp with rfl | hp
                  · exact hv
                  · exact hpres k hk v (by rw [lookupKey_setKey_ne _ _ hk]; exact hv) p hp
                · rw [List.chain'_cons']
                  refine ⟨?_, hchain⟩
                  intro y hy
                  rcases hhead with rfl | hhead
                  · simp at hy
                  · rw [hhead] at hy
                    have hyeq : y = setKey params "starting_after"
                        (_safe_get last [cursorField] J.null) := by
                      simpa [eq_comm] using hy
                    subst hyeq
                    exact ⟨_, htruthy, rfl⟩
            case isFalse htruthy =>
              obtain ⟨rfl, rfl⟩ : tr = [params] ∧ e = tsFinish dataKey
                  (acc ++ sliceToMax maxI t (_safe_get d [dataKey] (J.arr [])).asList)
                  (J.bool false) (_safe_get last [cursorField] J.null) := by
                simpa [eq_comm] using hres
              refine ⟨Or.inr rfl, ?_, by simp⟩
              intro k hk v hv p hp
              rw [List.mem_singleton] at hp
              subst hp
              exact hv
          case h_2 hlast =>
            obtain ⟨rfl, rfl⟩ : tr = [params] ∧ e = tsFinish dataKey
                (acc ++ sliceToMax maxI t (_safe_get d [dataKey] (J.arr [])).asList)
                (J.bool false) msa := by
              simpa [eq_comm] using hres
            refine ⟨Or.inr rfl, ?_, by simp⟩
            intro k hk v hv p hp
            rw [List.mem_singleton] at hp
            subst hp
            exact hv

/-- Trace structure of the id loop: first request uses the entry
parameters; non-`starting_after_id` keys persist; each later request is
the previous one with `starting_after_id` overwritten by a truthy body
cursor. -/
theorem idLoop_trace (dataKey : String) (ap : Bool) (maxI : Option Nat) :
    ∀ (resps acc : List J) (hm : J) (params : Params) (t : Nat)
      (tr : List Params) (e : Envelope),
      idLoop dataKey ap maxI resps acc hm params t = some (tr, e) →
      (tr = [] ∨ tr.head? = some params) ∧
      (∀ (k : String), k ≠ "starting_after_id" → ∀ v, lookupKey params k = some v →
        ∀ p ∈ tr, lookupKey p k = some v) ∧
      List.Chain' (fun p q => ∃ c, c.truthy = true ∧ q = setKey p "starting_after_id" c) tr := by
  intro resps
  induction resps with
  | nil =>
      intro acc hm params t tr e hres
      simp only [idLoop] at hres
      split at hres
      · exact absurd hres (by simp)
      · obtain ⟨rfl, rfl⟩ : tr = [] ∧ e = idFinish dataKey acc hm params := by
          simpa [eq_comm] using hres
        exact ⟨Or.inl rfl, by simp, by simp⟩
  | cons d rest ih =>
      intro acc hm params t tr e hres
      simp only [idLoop] at hres
      split at hres
      case isFalse =>
        obtain ⟨rfl, rfl⟩ : tr = [] ∧ e = idFinish dataKey acc hm params := by
          simpa [eq_comm] using hres
        exact ⟨Or.inl rfl, by simp, by simp⟩
      case isTrue hcond =>
        split at hres
        case isTrue hbreak =>
          obtain ⟨rfl, rfl⟩ : tr = [params] ∧ e = idFinish dataKey
              (acc ++ sliceToMax maxI t (_safe_get d [dataKey] (J.arr [])).asList)
              (_safe_get d ["has_more"] (J.bool false)) params := by
            simpa [eq_comm] using hres
          refine ⟨Or.inr rfl, ?_, by simp⟩
          intro k hk v hv p hp
          rw [List.mem_singleton] at hp
          subst hp
          exact hv
        case isFalse hbreak =>
          split at hres
          case isTrue htruthy =>
            rcases hmap : idLoop dataKey ap maxI rest
                (acc ++ sliceToMax maxI t (_safe_get d [dataKey] (J.arr [])).asList)
                (_safe_get d ["has_more"] (J.bool false))
                (setKey params "starting_after_id" (_safe_get d ["more_starting_after"] J.null))
                (t + (sliceToMax maxI t (_safe_get d [dataKey] (J.arr [])).asList).length)
              with _ | ⟨tr', e'⟩
            · rw [hmap] at hres
              exact absurd hres (by simp)
            · rw [hmap] at hres
              obtain ⟨rfl, rfl⟩ : tr = params :: tr' ∧ e = e' := by
                simpa [eq_comm] using hres
              obtain ⟨hhead, hpres, hchain⟩ := ih _ _ _ _ _ _ hmap
              refine ⟨Or.inr rfl, ?_, ?_⟩
              · intro k hk v hv p hp
                rw [List.mem_cons] at hp
                rcases hp with rfl | hp
                · exact hv
                · exact hpres k hk v (by rw [lookupKey_setKey_ne _ _ hk]; exact hv) p hp
              · rw [List.chain'_cons']
                refine ⟨?_, hchain⟩
                intro y hy
                rcases hhead with rfl | hhead
                · simp at hy
                · rw [hhead] at hy
                  have hyeq : y = setKey params "starting_after_id"
                      (_safe_get d ["more_starting_after"] J.null) := by
                    simpa [eq_comm] using hy
                  subst hyeq
                  exact ⟨_, htruthy, rfl⟩
          case isFalse htruthy =>
            obtain ⟨rfl, rfl⟩ : tr = [params] ∧ e = idFinish dataKey
                (acc ++ sliceToMax maxI t (_safe_get d [dataKey] (J.arr [])).asList)
                (J.bool false) params := by
              simpa [eq_comm] using hres
            refine ⟨Or.inr rfl, ?_, by simp⟩
            intro k hk v hv p hp
            rw [List.mem_singleton] at hp
            subst hp
            exact hv

/-- Trace structure of the page loop: first request uses the entry
parameters; non-page keys persist; each later request is the previous
one with the page parameter overwritten by its successor. -/
theorem pagesLoop_trace (dataKey pageParam : String) (limit : Int) (maxI : Option Nat) :
    ∀ (resps acc : List J) (page : Int) (params : Params) (t : Nat)
      (tr : List Params) (e : Envelope),
      lookupKey params pageParam = some (.num page) →
      pagesLoop dataKey pageParam limit maxI resps acc page params t = some (tr, e) →
      (tr = [] ∨ tr.head? = some params) ∧
      (∀ (k : String), k ≠ pageParam → ∀ v, lookupKey params k = some v →
        ∀ p ∈ tr, lookupKey p k = some v) ∧
      List.Chain' (fun p q => ∃ n : Int, lookupKey p pageParam = some (.num n) ∧
        q = setKey p pageParam (.num (n + 1))) tr := by
  intro resps
  induction resps with
  | nil =>
      intro acc page params t tr e hpage hres
      simp only [pagesLoop] at hres
      split at hres
      · exact absurd hres (by simp)
      · obtain ⟨rfl, rfl⟩ : tr = [] ∧ e = ⟨dataKey, acc, .bool true, none⟩ := by
          simpa [eq_comm] using hres
        exact ⟨Or.inl rfl, by simp, by simp⟩
  | cons d rest ih =>
      intro acc page params t tr e hpage hres
      simp only [pagesLoop] at hres
      split at hres
      case isFalse =>
        obtain ⟨rfl, rfl⟩ : tr = [] ∧ e = ⟨dataKey, acc, .bool true, none⟩ := by
          simpa [eq_comm] using hres
        exact ⟨Or.inl rfl, by simp, by simp⟩
      case isTrue hcond =>
        split at hres
        case isTrue hempty =>
          obtain ⟨rfl, rfl⟩ : tr = [params] ∧ e = ⟨dataKey, acc, .bool false, none⟩ := by
            simpa [eq_comm] using hres
          refine ⟨Or.inr rfl, ?_, by simp⟩
          intro k hk v hv p hp
          rw [List.mem_singleton] at hp
          subst hp
          exact hv
        case isFalse hempty =>
          split at hres
          case isTrue hshort =>
            obtain ⟨rfl, rfl⟩ : tr = [params] ∧ e = ⟨dataKey,
                acc ++ sliceToMax maxI t (_safe_get d [dataKey] (J.arr [])).asList,
                .bool false, none⟩ := by
              simpa [eq_comm] using hres
            refine ⟨Or.inr rfl, ?_, by simp⟩
            intro k hk v hv p hp
            rw [List.mem_singleton] at hp
            subst hp
            exact hv
          case isFalse hshort =>
            split at hres
            case isTrue hmaxed =>
              obtain ⟨rfl, rfl⟩ : tr = [params] ∧ e = ⟨dataKey,
                  acc ++ sliceToMax maxI t (_safe_get d [dataKey] (J.arr [])).asList,
                  .bool true, none⟩ := by
                simpa [eq_comm] using hres
              refine ⟨Or.inr rfl, ?_, by simp⟩
              intro k hk v hv p hp
              rw [List.mem_singleton] at hp
              subst hp
              exact hv
            case isFalse hmaxed =>
              rcases hmap : pagesLoop dataKey pageParam limit maxI rest
                  (acc ++ sliceToMax maxI t (_safe_get d [dataKey] (J.arr [])).asList)
                  (page + 1) (setKey params pageParam (.num (page + 1)))
                  (t + (sliceToMax maxI t (_safe_get d [dataKey] (J.arr [])).asList).length)
                with _ | ⟨tr', e'⟩
              · rw [hmap] at hres
                exact absurd hres (by simp)
              · rw [hmap] at hres
                obtain ⟨rfl, rfl⟩ : tr = params :: tr' ∧ e = e' := by
                  simpa [eq_comm] using hres
                obtain ⟨hhead, hpres, hchain⟩ :=
                  ih _ _ _ _ _ _ (lookupKey_setKey_self _ _ _) hmap
                refine ⟨Or.inr rfl, ?_, ?_⟩
                · intro k hk v hv p hp
                  rw [List.mem_cons] at hp
                  rcases hp with rfl | hp
                  · exact hv
                  · exact hpres k hk v (by rw [lookupKey_setKey_ne _ _ hk]; exact hv) p hp
                · rw [List.chain'_cons']
                  refine ⟨?_, hchain⟩
                  intro y hy
                  rcases hhead with rfl | hhead
                  · simp at hy
                  · rw [hhead] at hy
                    have hyeq : y = setKey params pageParam (.num (page + 1)) := by
                      simpa [eq_comm] using hy
                    subst hyeq
                    exact ⟨page, hpage, rfl⟩

/-- C9 (amended): the engine overwrites `limit` on every request it
issues, in all three strategies (auto mode); the cursor keys
(`starting_after` / `starting_after_id`) are overwritten by engine
cursors on every request after the first, and the page parameter is set
by the engine on every request (initialized from the caller's value, or
1, and incremented thereafter); but the first request of the cursor
strategies passes a caller-supplied cursor value through unchanged —
the first issued parameter dict is exactly `base_params` with only
`limit` (and, for pages, the page parameter) rewritten. -/
theorem c9_amended_param_overwrite :
    (∀ (base : Params) (dataKey cursorField : String) (limit : Int) (ap : Bool)
        (maxI : Option Nat) (resps : List J) (tr : List Params) (e : Envelope),
      _auto_paginate_timestamp base dataKey cursorField limit ap maxI resps = some (tr, e) →
      (tr = [] ∨ tr.head? = some (setKey base "limit" (.num limit))) ∧
      (∀ p ∈ tr, lookupKey p "limit" = some (.num limit)) ∧
      List.Chain' (fun p q => ∃ c, c.truthy = true ∧ q = setKey p "starting_after" c) tr) ∧
    (∀ (base : Params) (dataKey : String) (limit : Int) (ap : Bool)
        (maxI : Option Nat) (resps : List J) (tr : List Params) (e : Envelope),
      _auto_paginate_id base dataKey limit ap maxI resps = some (tr, e) →
      (tr = [] ∨ tr.head? = some (setKey base "limit" (.num limit))) ∧
      (∀ p ∈ tr, lookupKey p "limit" = some (.num limit)) ∧
      List.Chain' (fun p q => ∃ c, c.truthy = true ∧ q = setKey p "starting_after_id" c) tr) ∧
    (∀ (base : Params) (dataKey pageParam : String) (limit : Int)
        (maxI : Option Nat) (resps : List J) (tr : List Params) (body : J),
      pageParam ≠ "limit" →
      _auto_paginate_pages base dataKey limit true maxI pageParam resps = some (tr, body) →
      (tr = [] ∨ tr.head? = some (setKey (setKey base "limit" (.num limit)) pageParam
        (.num (startPage base pageParam)))) ∧
      (∀ p ∈ tr, lookupKey p "limit" = some (.num limit)) ∧
      List.Chain' (fun p q => ∃ n : Int, lookupKey p pageParam = some (.num n) ∧
        q = setKey p pageParam (.num (n + 1))) tr) := by
  refine ⟨?_, ?_, ?_⟩
  · intro base dataKey cursorField limit ap maxI resps tr e hres
    obtain ⟨hhead, hpres, hchain⟩ :=
      tsLoop_trace dataKey cursorField ap maxI resps [] (.bool true) .null
        (setKey base "limit" (.num limit)) 0 tr e hres
    exact ⟨hhead,
      fun p hp => hpres "limit" (by decide) _ (lookupKey_setKey_self _ _ _) p hp, hchain⟩
  · intro base dataKey limit ap maxI resps tr e hres
    obtain ⟨hhead, hpres, hchain⟩ :=
      idLoop_trace dataKey ap maxI resps [] (.bool true)
        (setKey base "limit" (.num limit)) 0 tr e hres
    exact ⟨hhead,
      fun p hp => hpres "limit" (by decide) _ (lookupKey_setKey_self _ _ _) p hp, hchain⟩
  · intro base dataKey pageParam limit maxI resps tr body hne hres
    rw [show _auto_paginate_pages base dataKey limit true maxI pageParam resps =
        (pagesLoop dataKey pageParam limit maxI resps [] (startPage base pageParam)
          (setKey (setKey base "limit" (.num limit)) pageParam
            (.num (startPage base pageParam))) 0).map (fun r => (r.1, r.2.toJ))
      from rfl] at hres
    rcases hmap : pagesLoop dataKey pageParam limit maxI resps [] (startPage base pageParam)
        (setKey (setKey base "limit" (.num limit)) pageParam
          (.num (startPage base pageParam))) 0 with _ | ⟨tr', e'⟩
    · rw [hmap] at hres
      exact absurd hres (by simp)
    · rw [hmap] at hres
      obtain ⟨rfl, rfl⟩ : tr = tr' ∧ body = e'.toJ := by
        simpa [eq_comm] using hres
      obtain ⟨hhead, hpres, hchain⟩ :=
        pagesLoop_trace dataKey pageParam limit maxI resps [] (startPage base pageParam)
          (setKey (setKey base "limit" (.num limit)) pageParam
            (.num (startPage base pageParam))) 0 _ _
          (lookupKey_setKey_self _ _ _) hmap
      refine ⟨hhead, ?_, hchain⟩
      intro p hp
      refine hpres "limit" (Ne.symm hne) _ ?_ p hp
      rw [lookupKey_setKey_ne _ _ (Ne.symm hne)]
      exact lookupKey_setKey_self _ _ _

/-- Witness for C9 at a concrete run: two timestamp pages; the first
request is `base_params` with only `limit` rewritten, `limit` persists on
both requests, and the second request overwrites `starting_after` with
the engine's cursor. -/
theorem c9_amended_param_overwrite_witness :
    (([[("limit", J.num 3)],
        [("limit", J.num 3), ("starting_after", J.str "c1")]] : List Params) = [] ∨
      ([[("limit", J.num 3)],
        [("limit", J.num 3), ("starting_after", J.str "c1")]] : List Params).head? =
        some (setKey [] "limit" (.num 3))) ∧
    (∀ p ∈ ([[("limit", J.num 3)],
        [("limit", J.num 3), ("starting_after", J.str "c1")]] : List Params),
      lookupKey p "limit" = some (.num 3)) ∧
    List.Chain' (fun p q => ∃ c, c.truthy = true ∧ q = setKey p "starting_after" c)
      [[("limit", J.num 3)], [("limit", J.num 3), ("starting_after", J.str "c1")]] :=
  c9_amended_param_overwrite.1 [] "data" "id" 3 true none
    [J.obj [("data", .arr [.obj [("id", .str "c1")]]), ("has_more", .bool true)],
     J.obj [("data", .arr [.obj [("id", .str "c2")]]), ("has_more", .bool false)]]
    _ ⟨"data", [.obj [("id", .str "c1")], .obj [("id", .str "c2")]], .bool false, none⟩ rfl

theorem sliceToMax_none (t : Nat) (items : List J) : sliceToMax none t items = items := rfl

/-- With no item cap, the timestamp loop follows truthy cursors through
any prefix of protocol-honoring pages and stops at the first page whose
`has_more` is falsy, accumulating every batch in order and issuing one
request per page. -/
theorem tsLoop_drain (dataKey cursorField : String) :
    ∀ (pre : List J) (lastPage : J) (acc : List J) (hm msa : J) (params : Params) (t : Nat),
      hm.truthy = true →
      (∀ d ∈ pre, (hasMoreOf d).truthy = true) →
      (∀ d ∈ pre, ∃ l, (batchOf dataKey d).getLast? = some l ∧
        (cursorOf cursorField l).truthy = true) →
      (hasMoreOf lastPage).truthy = false →
      ∃ tr msafin,
        tsLoop dataKey cursorField true none (pre ++ [lastPage]) acc hm msa params t =
          some (tr, tsFinish dataKey
            (acc ++ ((pre ++ [lastPage]).map (batchOf dataKey)).flatten)
            (hasMoreOf lastPage) msafin) ∧
        tr.length = pre.length + 1 := by
  intro pre
  induction pre with
  | nil =>
      intro lastPage acc hm msa params t hhm hpre1 hpre2 hlast
      refine ⟨[params], msa, ?_, rfl⟩
      have hcond : (hm.truthy && underMax none t) = true := by simp [underMax, hhm]
      have hbreak : (!(_safe_get lastPage ["has_more"] (J.bool false)).truthy || !true)
          = true := by
        simp only [hasMoreOf] at hlast
        simp [hlast]
      simp only [List.nil_append, tsLoop, hcond, if_true, sliceToMax_none, hbreak]
      simp [batchOf, hasMoreOf]
  | cons d pre' ih =>
      intro lastPage acc hm msa params t hhm hpre1 hpre2 hlast
      have hhmd : (hasMoreOf d).truthy = true := hpre1 d (List.mem_cons_self d pre')
      obtain ⟨l, hl, hcl⟩ := hpre2 d (List.mem_cons_self d pre')
      obtain ⟨tr', msafin, heq, hlen⟩ := ih lastPage
        (acc ++ batchOf dataKey d) (hasMoreOf d) (cursorOf cursorField l)
        (setKey params "starting_after" (cursorOf cursorField l))
        (t + (batchOf dataKey d).length)
        hhmd (fun x hx => hpre1 x (List.mem_cons_of_mem d hx))
        (fun x hx => hpre2 x (List.mem_cons_of_mem d hx)) hlast
      refine ⟨params :: tr', msafin, ?_, by simp [hlen]⟩
      have hcond : (hm.truthy && underMax none t) = true := by simp [underMax, hhm]
      have hnobreak : (!(_safe_get d ["has_more"] (J.bool false)).truthy || !true)
          = false := by
        simp only [hasMoreOf] at hhmd
        simp [hhmd]
      simp only [List.cons_append, tsLoop, hcond, if_true, sliceToMax_none, hnobreak,
        Bool.false_eq_true, if_false]
      simp only [batchOf] at hl
      simp only [cursorOf] at hcl
      simp only [hl, hcl, if_true, List.append_eq]
      simp only [batchOf, cursorOf, hasMoreOf] at heq
      rw [heq]
      simp only [Option.map_some']
      have harr : (acc ++ (_safe_get d [dataKey] (J.arr [])).asList) ++
            ((pre' ++ [lastPage]).map (batchOf dataKey)).flatten =
          acc ++ (((d :: pre') ++ [lastPage]).map (batchOf dataKey)).flatten := by
        simp [batchOf, List.append_assoc]
      rw [harr]
      rfl

/-- C2: with `autoPaginate=true` and `maxItems=None`, timestamp-cursor
pagination over a protocol-honoring server — every non-final page has a
truthy `has_more` and a truthy cursor field on its last item, the final
page has a falsy `has_more` — returns exactly the concatenation of all
served batches, in server order (hence exactly `T` items), with a falsy
`has_more`, no cursor, and one request per page. -/
theorem c2_timestamp_full_drain
    (base : Params) (dataKey cursorField : String) (limit : Int)
    (pre : List J) (lastPage : J)
    (h1 : ∀ d ∈ pre, (hasMoreOf d).truthy = true)
    (h2 : ∀ d ∈ pre, ∃ l, (batchOf dataKey d).getLast? = some l ∧
      (cursorOf cursorField l).truthy = true)
    (hlast : (hasMoreOf lastPage).truthy = false) :
    ∃ tr e, _auto_paginate_timestamp base dataKey cursorField limit true none
        (pre ++ [lastPage]) = some (tr, e) ∧
      e.items = ((pre ++ [lastPage]).map (batchOf dataKey)).flatten ∧
      e.hasMore.truthy = false ∧
      e.moreStartingAfter = none ∧
      tr.length = pre.length + 1 := by
  obtain ⟨tr, msafin, heq, hlen⟩ := tsLoop_drain dataKey cursorField pre lastPage
    [] (.bool true) .null (setKey base "limit" (.num limit)) 0 rfl h1 h2 hlast
  refine ⟨tr, tsFinish dataKey (((pre ++ [lastPage]).map (batchOf dataKey)).flatten)
    (hasMoreOf lastPage) msafin, ?_, rfl, hlast, ?_, hlen⟩
  · rw [show _auto_paginate_timestamp base dataKey cursorField limit true none
        (pre ++ [lastPage]) = tsLoop dataKey cursorField true none (pre ++ [lastPage])
        [] (.bool true) .null (setKey base "limit" (.num limit)) 0 from rfl, heq]
    simp
  · simp [tsFinish, hlast]

/-- Witness for C2 at a concrete run — the §8 scenario shrunk: two full
pages (2 items each, truthy cursors) then a final page of 1 item with
`has_more=false` gives all 5 items in order, `has_more` falsy, no
cursor, three requests. -/
theorem c2_timestamp_full_drain_witness :
    ∃ tr e, _auto_paginate_timestamp [] "data" "id" 2 true none
        ([J.obj [("data", .arr [.obj [("id", .str "a1")], .obj [("id", .str "a2")]]),
            ("has_more", .bool true)],
          J.obj [("data", .arr [.obj [("id", .str "b1")], .obj [("id", .str "b2")]]),
            ("has_more", .bool true)]] ++
          [J.obj [("data", .arr [.obj [("id", .str "c1")]]), ("has_more", .bool false)]]) =
        some (tr, e) ∧
      e.items = (([J.obj [("data", .arr [.obj [("id", .str "a1")], .obj [("id", .str "a2")]]),
            ("has_more", .bool true)],
          J.obj [("data", .arr [.obj [("id", .str "b1")], .obj [("id", .str "b2")]]),
            ("has_more", .bool true)]] ++
          [J.obj [("data", .arr [.obj [("id", .str "c1")]]),
            ("has_more", .bool false)]]).map (batchOf "data")).flatten ∧
      e.hasMore.truthy = false ∧
      e.moreStartingAfter = none ∧
      tr.length = 2 + 1 :=
  c2_timestamp_full_drain [] "data" "id" 2
    [J.obj [("data", .arr [.obj [("id", .str "a1")], .obj [("id", .str "a2")]]),
        ("has_more", .bool true)],
      J.obj [("data", .arr [.obj [("id", .str "b1")], .obj [("id", .str "b2")]]),
        ("has_more", .bool true)]]
    (J.obj [("data", .arr [.obj [("id", .str "c1")]]), ("has_more", .bool false)])
    (by
      intro x hx
      rw [List.mem_cons, List.mem_singleton] at hx
      rcases hx with h | h <;> subst h <;> rfl)
    (by
      intro x hx
      rw [List.mem_cons, List.mem_singleton] at hx
      rcases hx with h | h <;> subst h
      · exact ⟨J.obj [("id", .str "a2")], rfl, rfl⟩
      · exact ⟨J.obj [("id", .str "b2")], rfl, rfl⟩)
    rfl

theorem sliceToMax_some (m t : Nat) (items : List J) :
    sliceToMax (some m) t items = items.take (m - t) := rfl

/-- With `maxItems = m` and a server that keeps serving non-empty pages
with truthy `has_more` and truthy item cursors, the timestamp loop stops
with exactly the first `m - t` pending items (sliced mid-batch), a
truthy `has_more`, and the cursor of the last item it kept. -/
theorem tsLoop_maxed (dataKey cursorField : String) (m : Nat) :
    ∀ (resps acc : List J) (hm msa : J) (params : Params) (t : Nat),
      hm.truthy = true →
      t < m →
      (∀ d ∈ resps, (hasMoreOf d).truthy = true) →
      (∀ d ∈ resps, batchOf dataKey d ≠ []) →
      (∀ d ∈ resps, ∀ x ∈ batchOf dataKey d, (cursorOf cursorField x).truthy = true) →
      m - t ≤ ((resps.map (batchOf dataKey)).flatten).length →
      ∃ tr e, tsLoop dataKey cursorField true (some m) resps acc hm msa params t =
          some (tr, e) ∧
        e.items = acc ++ ((resps.map (batchOf dataKey)).flatten).take (m - t) ∧
        e.hasMore.truthy = true ∧
        ∃ l, (((resps.map (batchOf dataKey)).flatten).take (m - t)).getLast? = some l ∧
          e.moreStartingAfter = some (cursorOf cursorField l) := by
  intro resps
  induction resps with
  | nil =>
      intro acc hm msa params t hhm htm h1 h2 h3 hsum
      simp at hsum
      omega
  | cons d rest ih =>
      intro acc hm msa params t hhm htm h1 h2 h3 hsum
      have hhmd : (hasMoreOf d).truthy = true := h1 d (List.mem_cons_self d rest)
      have hbne : batchOf dataKey d ≠ [] := h2 d (List.mem_cons_self d rest)
      have hcurs := h3 d (List.mem_cons_self d rest)
      have hum : underMax (some m) t = true := by simp [underMax, htm]
      have hcond : (hm.truthy && underMax (some m) t) = true := by simp [hhm, hum]
      have hnobreak : (!(_safe_get d ["has_more"] (J.bool false)).truthy || !true)
          = false := by
        simp only [hasMoreOf] at hhmd
        simp [hhmd]
      have hsne : sliceToMax (some m) t (batchOf dataKey d) ≠ [] :=
        sliceToMax_ne_nil hbne hum
      obtain ⟨l, hl⟩ :
          ∃ l, (sliceToMax (some m) t (batchOf dataKey d)).getLast? = some l := by
        rcases hs : sliceToMax (some m) t (batchOf dataKey d) with _ | ⟨a, ls⟩
        · exact absurd hs hsne
        · exact ⟨(a :: ls).getLast (by simp), List.getLast?_eq_getLast _ _⟩
      have hcl : (cursorOf cursorField l).truthy = true :=
        hcurs l (mem_of_sliceToMax (mem_of_getLast?_eq hl))
      simp only [batchOf] at hl hbne
      simp only [cursorOf] at hcl
      by_cases hcase : m - t ≤ ((_safe_get d [dataKey] (J.arr [])).asList).length
      · -- the cap is reached inside this batch: one more request, then stop
        have hlen_items :
            (sliceToMax (some m) t ((_safe_get d [dataKey] (J.arr [])).asList)).length
              = m - t := by
          simp [sliceToMax_some, List.length_take]
          omega
        have hstop : ((_safe_get d ["has_more"] (J.bool false)).truthy &&
            underMax (some m)
              (t + (sliceToMax (some m) t
                ((_safe_get d [dataKey] (J.arr [])).asList)).length)) = false := by
          rw [hlen_items]
          simp [underMax]
          omega
        refine ⟨[params], tsFinish dataKey
          (acc ++ sliceToMax (some m) t ((_safe_get d [dataKey] (J.arr [])).asList))
          (_safe_get d ["has_more"] (J.bool false)) (_safe_get l [cursorField] J.null),
          ?_, ?_, hhmd, ⟨l, ?_, ?_⟩⟩
        · simp only [tsLoop, hcond, if_true, hnobreak, Bool.false_eq_true, if_false,
            hl, hcl, if_true]
          rw [tsLoop_stop _ _ _ _ _ _ _ _ _ _ hstop]
          rfl
        · simp only [tsFinish]
          rw [sliceToMax_some, List.map_cons, List.flatten_cons]
          simp only [batchOf]
          rw [List.take_append_of_le_length hcase]
        · rw [List.map_cons, List.flatten_cons]
          simp only [batchOf]
          rw [List.take_append_of_le_length hcase]
          rw [sliceToMax_some] at hl
          exact hl
        · simp only [tsFinish, cursorOf]
          rw [if_pos]
          simp only [hasMoreOf] at hhmd
          simp [hhmd, hcl]
      · -- the whole batch is kept and the loop continues on the rest
        push_neg at hcase
        have hitems_all : sliceToMax (some m) t ((_safe_get d [dataKey] (J.arr [])).asList)
            = (_safe_get d [dataKey] (J.arr [])).asList := by
          rw [sliceToMax_some]
          exact List.take_of_length_le (by omega)
        have htm' : t + ((_safe_get d [dataKey] (J.arr [])).asList).length < m := by
          omega
        have hsum' : m - (t + ((_safe_get d [dataKey] (J.arr [])).asList).length) ≤
            ((rest.map (batchOf dataKey)).flatten).length := by
          simp only [List.map_cons, List.flatten_cons, List.length_append, batchOf] at hsum
          omega
        obtain ⟨tr', e', heq, hitems, hhm', l', hl', hmsa'⟩ := ih
          (acc ++ (_safe_get d [dataKey] (J.arr [])).asList)
          (_safe_get d ["has_more"] (J.bool false))
          (_safe_get l [cursorField] J.null)
          (setKey params "starting_after" (_safe_get l [cursorField] J.null))
          (t + ((_safe_get d [dataKey] (J.arr [])).asList).length)
          (by simp only [hasMoreOf] at hhmd; exact hhmd) htm'
          (fun x hx => h1 x (List.mem_cons_of_mem d hx))
          (fun x hx => h2 x (List.mem_cons_of_mem d hx))
          (fun x hx => h3 x (List.mem_cons_of_mem d hx))
          hsum'
        have htake_ne : ((rest.map (batchOf dataKey)).flatten).take
            (m - (t + ((_safe_get d [dataKey] (J.arr [])).asList).length)) ≠ [] := by
          intro hnil
          rw [hnil] at hl'
          simp at hl'
        refine ⟨params :: tr', e', ?_, ?_, hhm', ⟨l', ?_, hmsa'⟩⟩
        · rw [hitems_all] at hl
          simp only [tsLoop, hcond, if_true, hnobreak, Bool.false_eq_true, if_false,
            hitems_all, hl, hcl, if_true]
          rw [heq]
          rfl
        · rw [hitems, List.map_cons, List.flatten_cons]
          simp only [batchOf]
          rw [List.take_append_eq_append_take, List.take_of_length_le (le_of_lt hcase)]
          rw [show m - t - ((_safe_get d [dataKey] (J.arr [])).asList).length =
            m - (t + ((_safe_get d [dataKey] (J.arr [])).asList).length) by omega]
          simp [List.append_assoc]
        · rw [List.map_cons, List.flatten_cons]
          simp only [batchOf]
          rw [List.take_append_eq_append_take, List.take_of_length_le (le_of_lt hcase),
            show m - t - ((_safe_get d [dataKey] (J.arr [])).asList).length =
              m - (t + ((_safe_get d [dataKey] (J.arr [])).asList).length) by omega,
            List.getLast?_append_of_ne_nil _ htake_ne]
          exact hl'

/-- With `maxItems = m` and a server that keeps reporting truthy
`has_more` and a truthy `more_starting_after`, the id loop stops with
exactly the first `m - t` pending items and the cursor of the last
consumed page. -/
theorem idLoop_maxed (dataKey : String) (m : Nat) :
    ∀ (resps acc : List J) (hm : J) (params : Params) (t : Nat),
      hm.truthy = true →
      t < m →
      (∀ d ∈ resps, (hasMoreOf d).truthy = true) →
      (∀ d ∈ resps, (msaOf d).truthy = true) →
      m - t ≤ ((resps.map (batchOf dataKey)).flatten).length →
      ∃ tr e, idLoop dataKey true (some m) resps acc hm params t = some (tr, e) ∧
        e.items = acc ++ ((resps.map (batchOf dataKey)).flatten).take (m - t) ∧
        e.hasMore.truthy = true ∧
        ∃ d ∈ resps, e.moreStartingAfter = some (msaOf d) := by
  intro resps
  induction resps with
  | nil =>
      intro acc hm params t hhm htm h1 h2 hsum
      simp at hsum
      omega
  | cons d rest ih =>
      intro acc hm params t hhm htm h1 h2 hsum
      have hhmd : (hasMoreOf d).truthy = true := h1 d (List.mem_cons_self d rest)
      have hmsad : (msaOf d).truthy = true := h2 d (List.mem_cons_self d rest)
      have hum : underMax (some m) t = true := by simp [underMax, htm]
      have hcond : (hm.truthy && underMax (some m) t) = true := by simp [hhm, hum]
      have hnobreak : (!(_safe_get d ["has_more"] (J.bool false)).truthy || !true)
          = false := by
        simp only [hasMoreOf] at hhmd
        simp [hhmd]
      have hmsad' : (_safe_get d ["more_starting_after"] J.null).truthy = true := by
        simpa [msaOf] using hmsad
      by_cases hcase : m - t ≤ ((_safe_get d [dataKey] (J.arr [])).asList).length
      · have hstop : ((_safe_get d ["has_more"] (J.bool false)).truthy &&
            underMax (some m)
              (t + (sliceToMax (some m) t
                ((_safe_get d [dataKey] (J.arr [])).asList)).length)) = false := by
          have : (sliceToMax (some m) t
              ((_safe_get d [dataKey] (J.arr [])).asList)).length = m - t := by
            simp [sliceToMax_some, List.length_take]
            omega
          rw [this]
          simp [underMax]
          omega
        refine ⟨[params], idFinish dataKey
          (acc ++ sliceToMax (some m) t ((_safe_get d [dataKey] (J.arr [])).asList))
          (_safe_get d ["has_more"] (J.bool false))
          (setKey params "starting_after_id" (_safe_get d ["more_starting_after"] J.null)),
          ?_, ?_, hhmd, ⟨d, List.mem_cons_self d rest, ?_⟩⟩
        · simp only [idLoop, hcond, if_true, hnobreak, Bool.false_eq_true, if_false,
            hmsad', if_true]
          rw [idLoop_stop _ _ _ _ _ _ _ _ hstop]
          rfl
        · simp only [idFinish]
          rw [sliceToMax_some, List.map_cons, List.flatten_cons]
          simp only [batchOf]
          rw [List.take_append_of_le_length hcase]
        · simp only [idFinish, lookupKey_setKey_self, Option.getD_some]
          rw [if_pos]
          · simp [msaOf]
          · simp only [hasMoreOf] at hhmd
            simp [hhmd, hmsad']
      · push_neg at hcase
        have hitems_all : sliceToMax (some m) t ((_safe_get d [dataKey] (J.arr [])).asList)
            = (_safe_get d [dataKey] (J.arr [])).asList := by
          rw [sliceToMax_some]
          exact List.take_of_length_le (by omega)
        have htm' : t + ((_safe_get d [dataKey] (J.arr [])).asList).length < m := by
          omega
        have hsum' : m - (t + ((_safe_get d [dataKey] (J.arr [])).asList).length) ≤
            ((rest.map (batchOf dataKey)).flatten).length := by
          simp only [List.map_cons, List.flatten_cons, List.length_append, batchOf] at hsum
          omega
        obtain ⟨tr', e', heq, hitems, hhm', d', hd', hmsa'⟩ := ih
          (acc ++ (_safe_get d [dataKey] (J.arr [])).asList)
          (_safe_get d ["has_more"] (J.bool false))
          (setKey params "starting_after_id" (_safe_get d ["more_starting_after"] J.null))
          (t + ((_safe_get d [dataKey] (J.arr [])).asList).length)
          (by simp only [hasMoreOf] at hhmd; exact hhmd) htm'
          (fun x hx => h1 x (List.mem_cons_of_mem d hx))
          (fun x hx => h2 x (List.mem_cons_of_mem d hx))
          hsum'
        refine ⟨params :: tr', e', ?_, ?_, hhm', ⟨d', List.mem_cons_of_mem d hd', hmsa'⟩⟩
        · simp only [idLoop, hcond, if_true, hnobreak, Bool.false_eq_true, if_false,
            hmsad', if_true, hitems_all]
          rw [heq]
          rfl
        · rw [hitems, List.map_cons, List.flatten_cons]
          simp only [batchOf]
          rw [List.take_append_eq_append_take, List.take_of_length_le (le_of_lt hcase)]
          rw [show m - t - ((_safe_get d [dataKey] (J.arr [])).asList).length =
            m - (t + ((_safe_get d [dataKey] (J.arr [])).asList).length) by omega]
          simp [List.append_assoc]

/-- With `maxItems = m` and a server of exactly-`limit`-sized pages, the
page loop returns exactly the first `m - t` pending items (sliced
mid-batch) and never a cursor. -/
theorem pagesLoop_maxed (dataKey pageParam : String) (limit : Int) (m : Nat) :
    ∀ (resps acc : List J) (page : Int) (params : Params) (t : Nat),
      t < m →
      0 < limit →
      (∀ d ∈ resps, ((batchOf dataKey d).length : Int) = limit) →
      m - t ≤ ((resps.map (batchOf dataKey)).flatten).length →
      ∃ tr e, pagesLoop dataKey pageParam limit (some m) resps acc page params t =
          some (tr, e) ∧
        e.items = acc ++ ((resps.map (batchOf dataKey)).flatten).take (m - t) ∧
        e.moreStartingAfter = none := by
  intro resps
  induction resps with
  | nil =>
      intro acc page params t htm hlim hlen hsum
      simp at hsum
      omega
  | cons d rest ih =>
      intro acc page params t htm hlim hlen hsum
      have hlend : ((batchOf dataKey d).length : Int) = limit :=
        hlen d (List.mem_cons_self d rest)
      simp only [batchOf] at hlend
      have hum : underMax (some m) t = true := by simp [underMax, htm]
      have hbne : ((_safe_get d [dataKey] (J.arr [])).asList).isEmpty = false := by
        rcases hb : (_safe_get d [dataKey] (J.arr [])).asList with _ | ⟨a, ls⟩
        · rw [hb] at hlend
          simp at hlend
          omega
        · rfl
      by_cases hcase : m - t < ((_safe_get d [dataKey] (J.arr [])).asList).length
      · -- cap reached strictly inside the batch: sliced short batch, stop
        have hlen_items :
            (sliceToMax (some m) t ((_safe_get d [dataKey] (J.arr [])).asList)).length
              = m - t := by
          simp [sliceToMax_some, List.length_take]
          omega
        have hshort : ((sliceToMax (some m) t
            ((_safe_get d [dataKey] (J.arr [])).asList)).length : Int) < limit := by
          rw [hlen_items]
          omega
        refine ⟨[params], ⟨dataKey,
          acc ++ sliceToMax (some m) t ((_safe_get d [dataKey] (J.arr [])).asList),
          .bool false, none⟩, ?_, ?_, rfl⟩
        · simp only [pagesLoop, hum, if_true, hbne, Bool.false_eq_true, if_false,
            Bool.not_eq_true]
          rw [if_pos hshort]
        · rw [sliceToMax_some, List.map_cons, List.flatten_cons]
          simp only [batchOf]
          rw [List.take_append_of_le_length (le_of_lt hcase)]
      · push_neg at hcase
        have hitems_all : sliceToMax (some m) t ((_safe_get d [dataKey] (J.arr [])).asList)
            = (_safe_get d [dataKey] (J.arr [])).asList := by
          rw [sliceToMax_some]
          exact List.take_of_length_le hcase
        have hnotshort : ¬ (((sliceToMax (some m) t
            ((_safe_get d [dataKey] (J.arr [])).asList)).length : Int) < limit) := by
          rw [hitems_all]
          omega
        by_cases hfull : t + ((_safe_get d [dataKey] (J.arr [])).asList).length = m
        · -- cap reached exactly at the page boundary: stop with has_more=True
          have hmaxed : ¬ (underMax (some m) (t + (sliceToMax (some m) t
              ((_safe_get d [dataKey] (J.arr [])).asList)).length) = true) := by
            rw [hitems_all]
            simp [underMax]
            omega
          refine ⟨[params], ⟨dataKey,
            acc ++ (_safe_get d [dataKey] (J.arr [])).asList, .bool true, none⟩,
            ?_, ?_, rfl⟩
          · simp only [pagesLoop, hum, if_true, hbne, Bool.false_eq_true, if_false]
            rw [if_neg hnotshort, if_pos (by simpa using hmaxed), hitems_all]
          · rw [List.map_cons, List.flatten_cons]
            simp only [batchOf]
            rw [List.take_append_eq_append_take,
              List.take_of_length_le (by omega :
                ((_safe_get d [dataKey] (J.arr [])).asList).length ≤ m - t),
              show m - t - ((_safe_get d [dataKey] (J.arr [])).asList).length = 0 by omega,
              List.take_zero, List.append_nil]
        · -- keep going: full batch, next page
          have htm' : t + ((_safe_get d [dataKey] (J.arr [])).asList).length < m := by
            omega
          have hnotmaxed : underMax (some m) (t + (sliceToMax (some m) t
              ((_safe_get d [dataKey] (J.arr [])).asList)).length) = true := by
            rw [hitems_all]
            simp [underMax]
            omega
          have hsum' : m - (t + ((_safe_get d [dataKey] (J.arr [])).asList).length) ≤
              ((rest.map (batchOf dataKey)).flatten).length := by
            simp only [List.map_cons, List.flatten_cons, List.length_append, batchOf] at hsum
            omega
          obtain ⟨tr', e', heq, hitems, hmsa'⟩ := ih
            (acc ++ (_safe_get d [dataKey] (J.arr [])).asList) (page + 1)
            (setKey params pageParam (.num (page + 1)))
            (t + ((_safe_get d [dataKey] (J.arr [])).asList).length)
            htm' hlim (fun x hx => hlen x (List.mem_cons_of_mem d hx)) hsum'
          refine ⟨params :: tr', e', ?_, ?_, hmsa'⟩
          · simp only [pagesLoop, hum, if_true, hbne, Bool.false_eq_true, if_false]
            rw [if_neg hnotshort, if_neg (by simpa using hnotmaxed), hitems_all, heq]
            rfl
          · rw [hitems, List.map_cons, List.flatten_cons]
            simp only [batchOf]
            rw [List.take_append_eq_append_take, List.take_of_length_le hcase]
            rw [show m - t - ((_safe_get d [dataKey] (J.arr [])).asList).length =
              m - (t + ((_safe_get d [dataKey] (J.arr [])).asList).length) by omega]
            simp [List.append_assoc]

/-- C1 (amended): for `maxItems = m` with `1 ≤ m ≤ T` over a
protocol-honoring server, the two cursor-follow strategies return
exactly `m` items — the final batch truncated by slicing, never by
discarding the fetched page — with `has_more` truthy and a valid cursor
(the cursor field of the `m`-th item for the timestamp strategy; the
last consumed body's `more_starting_after` for the id strategy).  The
page-number strategy also returns exactly the first `m` items by slicing
the final batch, but its envelope never carries a cursor (and reports
`has_more=false` when the cap falls strictly inside a page — see the
counterexample). -/
theorem c1_amended_max_items :
    (∀ (base : Params) (dataKey cursorField : String) (limit : Int) (m : Nat)
        (resps : List J),
      0 < m →
      (∀ d ∈ resps, (hasMoreOf d).truthy = true) →
      (∀ d ∈ resps, batchOf dataKey d ≠ []) →
      (∀ d ∈ resps, ∀ x ∈ batchOf dataKey d, (cursorOf cursorField x).truthy = true) →
      m ≤ ((resps.map (batchOf dataKey)).flatten).length →
      ∃ tr e, _auto_paginate_timestamp base dataKey cursorField limit true (some m) resps =
          some (tr, e) ∧
        e.items = ((resps.map (batchOf dataKey)).flatten).take m ∧
        e.items.length = m ∧
        e.hasMore.truthy = true ∧
        ∃ l, (((resps.map (batchOf dataKey)).flatten).take m).getLast? = some l ∧
          e.moreStartingAfter = some (cursorOf cursorField l)) ∧
    (∀ (base : Params) (dataKey : String) (limit : Int) (m : Nat) (resps : List J),
      0 < m →
      (∀ d ∈ resps, (hasMoreOf d).truthy = true) →
      (∀ d ∈ resps, (msaOf d).truthy = true) →
      m ≤ ((resps.map (batchOf dataKey)).flatten).length →
      ∃ tr e, _auto_paginate_id base dataKey limit true (some m) resps = some (tr, e) ∧
        e.items = ((resps.map (batchOf dataKey)).flatten).take m ∧
        e.items.length = m ∧
        e.hasMore.truthy = true ∧
        ∃ d ∈ resps, e.moreStartingAfter = some (msaOf d)) ∧
    (∀ (base : Params) (dataKey pageParam : String) (limit : Int) (m : Nat)
        (resps : List J),
      0 < m →
      0 < limit →
      (∀ d ∈ resps, ((batchOf dataKey d).length : Int) = limit) →
      m ≤ ((resps.map (batchOf dataKey)).flatten).length →
      ∃ tr e, _auto_paginate_pages base dataKey limit true (some m) pageParam resps =
          some (tr, Envelope.toJ e) ∧
        e.items = ((resps.map (batchOf dataKey)).flatten).take m ∧
        e.items.length = m ∧
        e.moreStartingAfter = none) := by
  refine ⟨?_, ?_, ?_⟩
  · intro base dataKey cursorField limit m resps hm h1 h2 h3 hsum
    obtain ⟨tr, e, heq, hitems, hhm, l, hl, hmsa⟩ :=
      tsLoop_maxed dataKey cursorField m resps [] (.bool true) .null
        (setKey base "limit" (.num limit)) 0 rfl hm h1 h2 h3 (by simpa using hsum)
    refine ⟨tr, e, heq, by simpa using hitems, ?_, hhm, l, by simpa using hl,
      hmsa⟩
    rw [show e.items = ((resps.map (batchOf dataKey)).flatten).take m by simpa using hitems,
      List.length_take]
    omega
  · intro base dataKey limit m resps hm h1 h2 hsum
    obtain ⟨tr, e, heq, hitems, hhm, d, hd, hmsa⟩ :=
      idLoop_maxed dataKey m resps [] (.bool true)
        (setKey base "limit" (.num limit)) 0 rfl hm h1 h2 (by simpa using hsum)
    refine ⟨tr, e, heq, by simpa using hitems, ?_, hhm, d, hd, hmsa⟩
    rw [show e.items = ((resps.map (batchOf dataKey)).flatten).take m by simpa using hitems,
      List.length_take]
    omega
  · intro base dataKey pageParam limit m resps hm hlim hlen hsum
    obtain ⟨tr, e, heq, hitems, hmsa⟩ :=
      pagesLoop_maxed dataKey pageParam limit m resps [] (startPage base pageParam)
        (setKey (setKey base "limit" (.num limit)) pageParam
          (.num (startPage base pageParam))) 0 hm hlim hlen (by simpa using hsum)
    refine ⟨tr, e, ?_, by simpa using hitems, ?_, hmsa⟩
    · rw [show _auto_paginate_pages base dataKey limit true (some m) pageParam resps =
          (pagesLoop dataKey pageParam limit (some m) resps [] (startPage base pageParam)
            (setKey (setKey base "limit" (.num limit)) pageParam
              (.num (startPage base pageParam))) 0).map (fun r => (r.1, r.2.toJ))
        from rfl, heq]
      rfl
    · rw [show e.items = ((resps.map (batchOf dataKey)).flatten).take m by simpa using hitems,
        List.length_take]
      omega

/-- Witness for C1 at concrete runs: `maxItems=3` over two 2-item pages
for each strategy; the cursor strategies keep a truthy `has_more` and a
cursor, the page strategy returns exactly 3 items and no cursor. -/
theorem c1_amended_max_items_witness :
    (∃ tr e, _auto_paginate_timestamp [] "data" "id" 2 true (some 3)
        [J.obj [("data", .arr [.obj [("id", .str "a1")], .obj [("id", .str "a2")]]),
          ("has_more", .bool true)],
         J.obj [("data", .arr [.obj [("id", .str "b1")], .obj [("id", .str "b2")]]),
          ("has_more", .bool true)]] = some (tr, e) ∧
      e.items = (([J.obj [("data", .arr [.obj [("id", .str "a1")], .obj [("id", .str "a2")]]),
          ("has_more", .bool true)],
         J.obj [("data", .arr [.obj [("id", .str "b1")], .obj [("id", .str "b2")]]),
          ("has_more", .bool true)]].map (batchOf "data")).flatten).take 3 ∧
      e.items.length = 3 ∧
      e.hasMore.truthy = true ∧
      ∃ l, ((([J.obj [("data", .arr [.obj [("id", .str "a1")], .obj [("id", .str "a2")]]),
          ("has_more", .bool true)],
         J.obj [("data", .arr [.obj [("id", .str "b1")], .obj [("id", .str "b2")]]),
          ("has_more", .bool true)]].map (batchOf "data")).flatten).take 3).getLast? =
            some l ∧
        e.moreStartingAfter = some (cursorOf "id" l)) ∧
    (∃ tr e, _auto_paginate_id [] "data" 2 true (some 3)
        [J.obj [("data", .arr [.num 1, .num 2]), ("has_more", .bool true),
          ("more_starting_after", .str "m1")],
         J.obj [("data", .arr [.num 3, .num 4]), ("has_more", .bool true),
          ("more_starting_after", .str "m2")]] = some (tr, e) ∧
      e.items = (([J.obj [("data", .arr [.num 1, .num 2]), ("has_more", .bool true),
          ("more_starting_after", .str "m1")],
         J.obj [("data", .arr [.num 3, .num 4]), ("has_more", .bool true),
          ("more_starting_after", .str "m2")]].map (batchOf "data")).flatten).take 3 ∧
      e.items.length = 3 ∧
      e.hasMore.truthy = true ∧
      ∃ d ∈ [J.obj [("data", .arr [.num 1, .num 2]), ("has_more", .bool true),
          ("more_starting_after", .str "m1")],
         J.obj [("data", .arr [.num 3, .num 4]), ("has_more", .bool true),
          ("more_starting_after", .str "m2")]],
        e.moreStartingAfter = some (msaOf d)) ∧
    (∃ tr e, _auto_paginate_pages [] "data" 2 true (some 3) "page"
        [J.obj [("data", .arr [.num 1, .num 2])], J.obj [("data", .arr [.num 3, .num 4])]] =
          some (tr, Envelope.toJ e) ∧
      e.items = (([J.obj [("data", .arr [.num 1, .num 2])],
          J.obj [("data", .arr [.num 3, .num 4])]].map (batchOf "data")).flatten).take 3 ∧
      e.items.length = 3 ∧
      e.moreStartingAfter = none) :=
  ⟨c1_amended_max_items.1 [] "data" "id" 2 3 _ (by decide)
      (by
        intro x hx
        rw [List.mem_cons, List.mem_singleton] at hx
        rcases hx with h | h <;> subst h <;> rfl)
      (by
        intro x hx
        rw [List.mem_cons, List.mem_singleton] at hx
        rcases hx with h | h <;> subst h <;> exact List.cons_ne_nil _ _)
      (by
        intro d hd
        rw [List.mem_cons, List.mem_singleton] at hd
        rcases hd with h | h <;> subst h
        · intro y hy
          have hy' : y ∈ [J.obj [("id", J.str "a1")], J.obj [("id", J.str "a2")]] := hy
          rw [List.mem_cons, List.mem_singleton] at hy'
          rcases hy' with h' | h' <;> subst h' <;> rfl
        · intro y hy
          have hy' : y ∈ [J.obj [("id", J.str "b1")], J.obj [("id", J.str "b2")]] := hy
          rw [List.mem_cons, List.mem_singleton] at hy'
          rcases hy' with h' | h' <;> subst h' <;> rfl)
      (by decide),
    c1_amended_max_items.2.1 [] "data" 2 3 _ (by decide)
      (by
        intro x hx
        rw [List.mem_cons, List.mem_singleton] at hx
        rcases hx with h | h <;> subst h <;> rfl)
      (by
        intro x hx
        rw [List.mem_cons, List.mem_singleton] at hx
        rcases hx with h | h <;> subst h <;> rfl)
      (by decide),
    c1_amended_max_items.2.2 [] "data" "page" 2 3 _ (by decide) (by decide)
      (by
        intro x hx
        rw [List.mem_cons, List.mem_singleton] at hx
        rcases hx with h | h <;> subst h <;> rfl)
      (by decide)⟩

/-- Envelope invariants of the timestamp loop: correct `data_ref`, the
item count never exceeding the cap, and no cursor entry when `has_more`
is falsy. -/
theorem tsLoop_inv (dataKey cursorField : String) (ap : Bool) (maxI : Option Nat) :
    ∀ (resps acc : List J) (hm msa : J) (params : Params) (t : Nat)
      (tr : List Params) (e : Envelope),
      acc.length = t →
      (∀ m, maxI = some m → t ≤ m) →
      tsLoop dataKey cursorField ap maxI resps acc hm msa params t = some (tr, e) →
      e.dataRef = dataKey ∧
      (∀ m, maxI = some m → e.items.length ≤ m) ∧
      (e.hasMore.truthy = false → e.moreStartingAfter = none) := by
  intro resps
  induction resps with
  | nil =>
      intro acc hm msa params t tr e hacc hbound hres
      simp only [tsLoop] at hres
      split at hres
      · exact absurd hres (by simp)
      · obtain ⟨rfl, rfl⟩ : tr = [] ∧ e = tsFinish dataKey acc hm msa := by
          simpa [eq_comm] using hres
        refine ⟨rfl, fun m hm' => by simpa [tsFinish, hacc] using hbound m hm', ?_⟩
        intro hfalse
        simp only [tsFinish] at hfalse ⊢
        simp [hfalse]
  | cons d rest ih =>
      intro acc hm msa params t tr e hacc hbound hres
      simp only [tsLoop] at hres
      split at hres
      case isFalse =>
        obtain ⟨rfl, rfl⟩ : tr = [] ∧ e = tsFinish dataKey acc hm msa := by
          simpa [eq_comm] using hres
        refine ⟨rfl, fun m hm' => by simpa [tsFinish, hacc] using hbound m hm', ?_⟩
        intro hfalse
        simp only [tsFinish] at hfalse ⊢
        simp [hfalse]
      case isTrue hcond =>
        have hstep : ∀ m, maxI = some m →
            (acc ++ sliceToMax maxI t (_safe_get d [dataKey] (J.arr [])).asList).length
              ≤ m := by
          intro m hm'
          subst hm'
          have htm : t < m := by
            rcases Bool.and_eq_true _ _ |>.mp hcond with ⟨_, hum⟩
            simpa [underMax] using hum
          have := length_sliceToMax_le (m := m) (t := t)
            ((_safe_get d [dataKey] (J.arr [])).asList)
          simp only [List.length_append, hacc]
          omega
        split at hres
        case isTrue hbreak =>
          obtain ⟨rfl, rfl⟩ : tr = [params] ∧ e = tsFinish dataKey
              (acc ++ sliceToMax maxI t (_safe_get d [dataKey] (J.arr [])).asList)
              (_safe_get d ["has_more"] (J.bool false)) msa := by
            simpa [eq_comm] using hres
          refine ⟨rfl, fun m hm' => by simpa [tsFinish] using hstep m hm', ?_⟩
          intro hfalse
          simp only [tsFinish] at hfalse ⊢
          simp [hfalse]
        case isFalse hbreak =>
          split at hres
          case h_1 last hlast =>
            split at hres
            case isTrue htruthy =>
              rcases hmap : tsLoop dataKey cursorField ap maxI rest
                  (acc ++ sliceToMax maxI t (_safe_get d [dataKey] (J.arr [])).asList)
                  (_safe_get d ["has_more"] (J.bool false))
                  (_safe_get last [cursorField] J.null)
                  (setKey params "starting_after" (_safe_get last [cursorField] J.null))
                  (t + (sliceToMax maxI t (_safe_get d [dataKey] (J.arr [])).asList).length)
                  with _ | ⟨tr', e'⟩
              · rw [hmap] at hres
                exact absurd hres (by simp)
              · rw [hmap] at hres
                obtain ⟨rfl, rfl⟩ : tr = params :: tr' ∧ e = e' := by
                  simpa [eq_comm] using hres
                exact ih _ _ _ _ _ _ _ (by simp [hacc])
                  (fun m hm' => by
                    have := hstep m hm'
                    simpa [hacc] using this) hmap
            case isFalse htruthy =>
              obtain ⟨rfl, rfl⟩ : tr = [params] ∧ e = tsFinish dataKey
                  (acc ++ sliceToMax maxI t (_safe_get d [dataKey] (J.arr [])).asList)
                  (J.bool false) (_safe_get last [cursorField] J.null) := by
                simpa [eq_comm] using hres
              refine ⟨rfl, fun m hm' => by simpa [tsFinish] using hstep m hm', ?_⟩
              intro hfalse
              simp [tsFinish, J.truthy]
          case h_2 hlast =>
            obtain ⟨rfl, rfl⟩ : tr = [params] ∧ e = tsFinish dataKey
                (acc ++ sliceToMax maxI t (_safe_get d [dataKey] (J.arr [])).asList)
                (J.bool false) msa := by
              simpa [eq_comm] using hres
            refine ⟨rfl, fun m hm' => by simpa [tsFinish] using hstep m hm', ?_⟩
            intro hfalse
            simp [tsFinish, J.truthy]

/-- Envelope invariants of the id loop. -/
theorem idLoop_inv (dataKey : String) (ap : Bool) (maxI : Option Nat) :
    ∀ (resps acc : List J) (hm : J) (params : Params) (t : Nat)
      (tr : List Params) (e : Envelope),
      acc.length = t →
      (∀ m, maxI = some m → t ≤ m) →
      idLoop dataKey ap maxI resps acc hm params t = some (tr, e) →
      e.dataRef = dataKey ∧
      (∀ m, maxI = some m → e.items.length ≤ m) ∧
      (e.hasMore.truthy = false → e.moreStartingAfter = none) := by
  intro resps
  induction resps with
  | nil =>
      intro acc hm params t tr e hacc hbound hres
      simp only [idLoop] at hres
      split at hres
      · exact absurd hres (by simp)
      · obtain ⟨rfl, rfl⟩ : tr = [] ∧ e = idFinish dataKey acc hm params := by
          simpa [eq_comm] using hres
        refine ⟨rfl, fun m hm' => by simpa [idFinish, hacc] using hbound m hm', ?_⟩
        intro hfalse
        simp only [idFinish] at hfalse ⊢
        simp [hfalse]
  | cons d rest ih =>
      intro acc hm params t tr e hacc hbound hres
      simp only [idLoop] at hres
      split at hres
      case isFalse =>
        obtain ⟨rfl, rfl⟩ : tr = [] ∧ e = idFinish dataKey acc hm params := by
          simpa [eq_comm] using hres
        refine ⟨rfl, fun m hm' => by simpa [idFinish, hacc] using hbound m hm', ?_⟩
        intro hfalse
        simp only [idFinish] at hfalse ⊢
        simp [hfalse]
      case isTrue hcond =>
        have hstep : ∀ m, maxI = some m →
            (acc ++ sliceToMax maxI t (_safe_get d [dataKey] (J.arr [])).asList).length
              ≤ m := by
          intro m hm'
          subst hm'
          have htm : t < m := by
            rcases Bool.and_eq_true _ _ |>.mp hcond with ⟨_, hum⟩
            simpa [underMax] using hum
          have := length_sliceToMax_le (m := m) (t := t)
            ((_safe_get d [dataKey] (J.arr [])).asList)
          simp only [List.length_append, hacc]
          omega
        split at hres
        case isTrue hbreak =>
          obtain ⟨rfl, rfl⟩ : tr = [params] ∧ e = idFinish dataKey
              (acc ++ sliceToMax maxI t (_safe_get d [dataKey] (J.arr [])).asList)
              (_safe_get d ["has_more"] (J.bool false)) params := by
            simpa [eq_comm] using hres
          refine ⟨rfl, fun m hm' => by simpa [idFinish] using hstep m hm', ?_⟩
          intro hfalse
          simp only [idFinish] at hfalse ⊢
          simp [hfalse]
        case isFalse hbreak =>
          split at hres
          case isTrue htruthy =>
            rcases hmap : idLoop dataKey ap maxI rest
                (acc ++ sliceToMax maxI t (_safe_get d [dataKey] (J.arr [])).asList)
                (_safe_get d ["has_more"] (J.bool false))
                (setKey params "starting_after_id"
                  (_safe_get d ["more_starting_after"] J.null))
                (t + (sliceToMax maxI t (_safe_get d [dataKey] (J.arr [])).asList).length)
                with _ | ⟨tr', e'⟩
            · rw [hmap] at hres
              exact absurd hres (by simp)
            · rw [hmap] at hres
              obtain ⟨rfl, rfl⟩ : tr = params :: tr' ∧ e = e' := by
                simpa [eq_comm] using hres
              exact ih _ _ _ _ _ _ (by simp [hacc])
                (fun m hm' => by
                  have := hstep m hm'
                  simpa [hacc] using this) hmap
          case isFalse htruthy =>
            obtain ⟨rfl, rfl⟩ : tr = [params] ∧ e = idFinish dataKey
                (acc ++ sliceToMax maxI t (_safe_get d [dataKey] (J.arr [])).asList)
                (J.bool false) params := by
              simpa [eq_comm] using hres
            refine ⟨rfl, fun m hm' => by simpa [idFinish] using hstep m hm', ?_⟩
            intro hfalse
            simp [idFinish, J.truthy]

/-- Envelope invariants of the page loop: correct `data_ref`, capped item
count, and never a cursor entry. -/
theorem pagesLoop_inv (dataKey pageParam : String) (limit : Int) (maxI : Option Nat) :
    ∀ (resps acc : List J) (page : Int) (params : Params) (t : Nat)
      (tr : List Params) (e : Envelope),
      acc.length = t →
      (∀ m, maxI = some m → t ≤ m) →
      pagesLoop dataKey pageParam limit maxI resps acc page params t = some (tr, e) →
      e.dataRef = dataKey ∧
      (∀ m, maxI = some m → e.items.length ≤ m) ∧
      e.moreStartingAfter = none := by
  intro resps
  induction resps with
  | nil =>
      intro acc page params t tr e hacc hbound hres
      simp only [pagesLoop] at hres
      split at hres
      · exact absurd hres (by simp)
      · obtain ⟨rfl, rfl⟩ : tr = [] ∧ e = ⟨dataKey, acc, .bool true, none⟩ := by
          simpa [eq_comm] using hres
        exact ⟨rfl, fun m hm' => by simpa [hacc] using hbound m hm', rfl⟩
  | cons d rest ih =>
      intro acc page params t tr e hacc hbound hres
      simp only [pagesLoop] at hres
      split at hres
      case isFalse =>
        obtain ⟨rfl, rfl⟩ : tr = [] ∧ e = ⟨dataKey, acc, .bool true, none⟩ := by
          simpa [eq_comm] using hres
        exact ⟨rfl, fun m hm' => by simpa [hacc] using hbound m hm', rfl⟩
      case isTrue hcond =>
        have hstep : ∀ m, maxI = some m →
            (acc ++ sliceToMax maxI t (_safe_get d [dataKey] (J.arr [])).asList).length
              ≤ m := by
          intro m hm'
          subst hm'
          have htm : t < m := by simpa [underMax] using hcond
          have := length_sliceToMax_le (m := m) (t := t)
            ((_safe_get d [dataKey] (J.arr [])).asList)
          simp only [List.length_append, hacc]
          omega
        split at hres
        case isTrue hempty =>
          obtain ⟨rfl, rfl⟩ : tr = [params] ∧ e = ⟨dataKey, acc, .bool false, none⟩ := by
            simpa [eq_comm] using hres
          exact ⟨rfl, fun m hm' => by simpa [hacc] using hbound m hm', rfl⟩
        case isFalse hempty =>
          split at hres
          case isTrue hshort =>
            obtain ⟨rfl, rfl⟩ : tr = [params] ∧ e = ⟨dataKey,
                acc ++ sliceToMax maxI t (_safe_get d [dataKey] (J.arr [])).asList,
                .bool false, none⟩ := by
              simpa [eq_comm] using hres
            exact ⟨rfl, fun m hm' => by simpa using hstep m hm', rfl⟩
          case isFalse hshort =>
            split at hres
            case isTrue hmaxed =>
              obtain ⟨rfl, rfl⟩ : tr = [params] ∧ e = ⟨dataKey,
                  acc ++ sliceToMax maxI t (_safe_get d [dataKey] (J.arr [])).asList,
                  .bool true, none⟩ := by
                simpa [eq_comm] using hres
              exact ⟨rfl, fun m hm' => by simpa using hstep m hm', rfl⟩
            case isFalse hmaxed =>
              rcases hmap : pagesLoop dataKey pageParam limit maxI rest
                  (acc ++ sliceToMax maxI t (_safe_get d [dataKey] (J.arr [])).asList)
                  (page + 1) (setKey params pageParam (.num (page + 1)))
                  (t + (sliceToMax maxI t (_safe_get d [dataKey] (J.arr [])).asList).length)
                  with _ | ⟨tr', e'⟩
              · rw [hmap] at hres
                exact absurd hres (by simp)
              · rw [hmap] at hres
                obtain ⟨rfl, rfl⟩ : tr = params :: tr' ∧ e = e' := by
                  simpa [eq_comm] using hres
                exact ih _ _ _ _ _ _ (by simp [hacc])
                  (fun m hm' => by
                    have := hstep m hm'
                    simpa [hacc] using this) hmap

/-- C3 (amended): every envelope the two cursor-follow strategies return
— and every envelope the page-number strategy returns with
`autoPaginate=true` — renders as the one uniform shape
(`object:"list"`, `data_ref` naming the item key, the items array under
that key, `has_more`, and `more_starting_after` exactly when present in
the envelope), with the items count never exceeding `maxItems` and a
falsy `has_more` implying no cursor entry.  (With `autoPaginate=false`
the page-number strategy returns the raw body instead — see the
counterexample.) -/
theorem c3_amended_envelope_shape :
    (∀ (e : Envelope),
      e.dataRef ≠ "object" → e.dataRef ≠ "data_ref" → e.dataRef ≠ "has_more" →
      e.dataRef ≠ "more_starting_after" →
      _safe_get e.toJ ["object"] .null = .str "list" ∧
      _safe_get e.toJ ["data_ref"] .null = .str e.dataRef ∧
      _safe_get e.toJ [e.dataRef] .null = .arr e.items ∧
      _safe_get e.toJ ["has_more"] .null = e.hasMore ∧
      (∀ c, e.moreStartingAfter = some c →
        _safe_get e.toJ ["more_starting_after"] .null = c) ∧
      (e.moreStartingAfter = none → jMember e.toJ "more_starting_after" = false)) ∧
    (∀ (base : Params) (dataKey cursorField : String) (limit : Int) (ap : Bool)
        (maxI : Option Nat) (resps : List J) (tr : List Params) (e : Envelope),
      _auto_paginate_timestamp base dataKey cursorField limit ap maxI resps =
        some (tr, e) →
      e.dataRef = dataKey ∧
      (∀ m, maxI = some m → e.items.length ≤ m) ∧
      (e.hasMore.truthy = false → e.moreStartingAfter = none)) ∧
    (∀ (base : Params) (dataKey : String) (limit : Int) (ap : Bool)
        (maxI : Option Nat) (resps : List J) (tr : List Params) (e : Envelope),
      _auto_paginate_id base dataKey limit ap maxI resps = some (tr, e) →
      e.dataRef = dataKey ∧
      (∀ m, maxI = some m → e.items.length ≤ m) ∧
      (e.hasMore.truthy = false → e.moreStartingAfter = none)) ∧
    (∀ (base : Params) (dataKey pageParam : String) (limit : Int)
        (maxI : Option Nat) (resps : List J) (tr : List Params) (body : J),
      _auto_paginate_pages base dataKey limit true maxI pageParam resps =
        some (tr, body) →
      ∃ e, body = Envelope.toJ e ∧ e.dataRef = dataKey ∧
        (∀ m, maxI = some m → e.items.length ≤ m) ∧
        e.moreStartingAfter = none) := by
  refine ⟨?_, ?_, ?_, ?_⟩
  · intro e h1 h2 h3 h4
    cases hmsa : e.moreStartingAfter with
    | none =>
        refine ⟨?_, ?_, ?_, ?_, ?_, ?_⟩
        · simp [Envelope.toJ, hmsa, setKey, lookupKey, _safe_get,
            Ne.symm h1, Ne.symm h2, Ne.symm h3, Ne.symm h4, h1, h2, h3, h4]
        · simp [Envelope.toJ, hmsa, setKey, lookupKey, _safe_get,
            Ne.symm h1, Ne.symm h2, Ne.symm h3, Ne.symm h4, h1, h2, h3, h4]
        · simp [Envelope.toJ, hmsa, setKey, lookupKey, _safe_get,
            Ne.symm h1, Ne.symm h2, Ne.symm h3, Ne.symm h4, h1, h2, h3, h4]
        · simp [Envelope.toJ, hmsa, setKey, lookupKey, _safe_get,
            Ne.symm h1, Ne.symm h2, Ne.symm h3, Ne.symm h4, h1, h2, h3, h4]
        · intro c hc
          exact absurd hc (by simp)
        · intro _
          simp [Envelope.toJ, hmsa, setKey, lookupKey, jMember,
            Ne.symm h1, Ne.symm h2, Ne.symm h3, Ne.symm h4, h1, h2, h3, h4]
    | some c0 =>
        refine ⟨?_, ?_, ?_, ?_, ?_, ?_⟩
        · simp [Envelope.toJ, hmsa, setKey, lookupKey, _safe_get,
            Ne.symm h1, Ne.symm h2, Ne.symm h3, Ne.symm h4, h1, h2, h3, h4]
        · simp [Envelope.toJ, hmsa, setKey, lookupKey, _safe_get,
            Ne.symm h1, Ne.symm h2, Ne.symm h3, Ne.symm h4, h1, h2, h3, h4]
        · simp [Envelope.toJ, hmsa, setKey, lookupKey, _safe_get,
            Ne.symm h1, Ne.symm h2, Ne.symm h3, Ne.symm h4, h1, h2, h3, h4]
        · simp [Envelope.toJ, hmsa, setKey, lookupKey, _safe_get,
            Ne.symm h1, Ne.symm h2, Ne.symm h3, Ne.symm h4, h1, h2, h3, h4]
        · intro c hc
          obtain rfl : c0 = c := by simpa using hc
          simp [Envelope.toJ, hmsa, setKey, lookupKey, _safe_get,
            Ne.symm h1, Ne.symm h2, Ne.symm h3, Ne.symm h4, h1, h2, h3, h4]
        · intro hnone
          exact absurd hnone (by simp)
  · intro base dataKey cursorField limit ap maxI resps tr e hres
    exact tsLoop_inv dataKey cursorField ap maxI resps [] (.bool true) .null
      (setKey base "limit" (.num limit)) 0 tr e rfl (fun m _ => Nat.zero_le m) hres
  · intro base dataKey limit ap maxI resps tr e hres
    exact idLoop_inv dataKey ap maxI resps [] (.bool true)
      (setKey base "limit" (.num limit)) 0 tr e rfl (fun m _ => Nat.zero_le m) hres
  · intro base dataKey pageParam limit maxI resps tr body hres
    rw [show _auto_paginate_pages base dataKey limit true maxI pageParam resps =
        (pagesLoop dataKey pageParam limit maxI resps [] (startPage base pageParam)
          (setKey (setKey base "limit" (.num limit)) pageParam
            (.num (startPage base pageParam))) 0).map (fun r => (r.1, r.2.toJ))
      from rfl] at hres
    rcases hmap : pagesLoop dataKey pageParam limit maxI resps [] (startPage base pageParam)
        (setKey (setKey base "limit" (.num limit)) pageParam
          (.num (startPage base pageParam))) 0 with _ | ⟨tr', e'⟩
    · rw [hmap] at hres
      exact absurd hres (by simp)
    · rw [hmap] at hres
      obtain ⟨rfl, rfl⟩ : tr = tr' ∧ body = e'.toJ := by
        simpa [eq_comm] using hres
      obtain ⟨hdr, hbound, hmsa⟩ := pagesLoop_inv dataKey pageParam limit maxI resps []
        (startPage base pageParam)
        (setKey (setKey base "limit" (.num limit)) pageParam
          (.num (startPage base pageParam))) 0 _ _ rfl (fun m _ => Nat.zero_le m) hmap
      exact ⟨e', rfl, hdr, hbound, hmsa⟩

/-- Witness for C3: the rendered shape of a concrete cursor-carrying
envelope, and the invariants of a concrete timestamp run. -/
theorem c3_amended_envelope_shape_witness :
    (_safe_get (Envelope.toJ ⟨"data", [J.num 1], J.bool true, some (J.str "c")⟩)
        ["object"] .null = .str "list" ∧
      _safe_get (Envelope.toJ ⟨"data", [J.num 1], J.bool true, some (J.str "c")⟩)
        ["data_ref"] .null = .str "data" ∧
      _safe_get (Envelope.toJ ⟨"data", [J.num 1], J.bool true, some (J.str "c")⟩)
        ["data"] .null = .arr [J.num 1] ∧
      _safe_get (Envelope.toJ ⟨"data", [J.num 1], J.bool true, some (J.str "c")⟩)
        ["has_more"] .null = J.bool true ∧
      (∀ c, (some (J.str "c") : Option J) = some c →
        _safe_get (Envelope.toJ ⟨"data", [J.num 1], J.bool true, some (J.str "c")⟩)
          ["more_starting_after"] .null = c) ∧
      ((some (J.str "c") : Option J) = none →
        jMember (Envelope.toJ ⟨"data", [J.num 1], J.bool true, some (J.str "c")⟩)
          "more_starting_after" = false)) ∧
    (("data" : String) = "data" ∧
      (∀ m, (none : Option Nat) = some m →
        ([J.obj [("id", J.str "c1")], J.obj [("id", J.str "c2")]] : List J).length ≤ m) ∧
      ((J.bool false).truthy = false →
        (none : Option J) = none)) :=
  ⟨c3_amended_envelope_shape.1 ⟨"data", [J.num 1], J.bool true, some (J.str "c")⟩
      (by decide) (by decide) (by decide) (by decide),
    c3_amended_envelope_shape.2.1 [] "data" "id" 3 true none
      [J.obj [("data", .arr [.obj [("id", .str "c1")]]), ("has_more", .bool true)],
       J.obj [("data", .arr [.obj [("id", .str "c2")]]), ("has_more", .bool false)]]
      [[("limit", J.num 3)], [("limit", J.num 3), ("starting_after", J.str "c1")]]
      ⟨"data", [.obj [("id", .str "c1")], .obj [("id", .str "c2")]], .bool false, none⟩
      rfl⟩
